import Mathlib

/-!
Verification of tmq: dotted-path query and modification over a decoded TOML tree.

A shallow embedding of `internal/query/query.go`,
`internal/modifier/modifier.go`, `internal/converter/converter.go` and the
argument handling, path check and operation handlers of `cmd/tmq/main.go`.

* Go strings are Lean strings; `strings.Split`, `strings.Join` and
  `strings.TrimPrefix` are modelled on the character list of a string.
* A Go `interface{}` holding a decoded document is a `Value`: `nil`, a string,
  an int64, a float64, a bool, a `[]interface{}`, a `map[string]interface{}`
  or a `map[interface{}]interface{}`.  Other dynamic types (date-times,
  `[]map[string]interface{}`) are not modelled.  A Go map is an
  association list read by first match; writing an existing key replaces its
  value where it stands, writing a new key appends it, deleting a key removes
  every entry that carries it.
* `setValueAtPath` and `deleteValueAtPath` mutate their argument in place and
  return an error.  They are modelled by state passing: the result is the root
  mapping after the call together with the returned error (`none` for `nil`).
  Maps are taken to be unshared (a tree), as the TOML decoder produces them.
* `strconv.ParseFloat(s, 64)` is modelled from its contract: the text is read
  as `special` and `readFloat` read it (sign, decimal or hexadecimal mantissa,
  exponent, underscores), and the number read is rounded to the nearest
  float64, ties to even; a float64 is its bit pattern.  Any error of
  `ParseFloat` is `none`, since `parseValue` only tests `err == nil`.
* `DeleteValue` has a slice expression that can panic; its result is an
  `Option`, `none` standing for the panic.
* `main` is the function from the arguments to the package-level variables it
  sets and the handler it calls.  The handlers of operations return an
  `Effect`: the call of `writeTOMLFile` they make, the exit code, the returned
  error.  What the file system, the encoders and the Unicode case table decide
  is passed in: `stat`, `writeErr`, `outputFails`, `table`.
-/

namespace Tmq

/-! ## Data model -/

/-- Keys of a `map[interface{}]interface{}`: the comparable dynamic values. -/
inductive GKey where
  | str (s : String)
  | int (i : Int)
  | float (bits : Nat)
  | bool (b : Bool)
  deriving DecidableEq, Repr

/-- The dynamic values an `interface{}` of a decoded document holds.
`float` carries the bit pattern of the float64. -/
inductive Value where
  | nil
  | str (s : String)
  | int (i : Int)
  | float (bits : Nat)
  | bool (b : Bool)
  | arr (items : List Value)
  | smap (m : List (String × Value))
  | gmap (m : List (GKey × Value))
  deriving Repr

/-- A `map[string]interface{}`. -/
abbrev Fields := List (String × Value)

/-- A `map[interface{}]interface{}`. -/
abbrev GFields := List (GKey × Value)

/-- What `%T` prints for a value. -/
def typeName : Value → String
  | .nil => "<nil>"
  | .str _ => "string"
  | .int _ => "int64"
  | .float _ => "float64"
  | .bool _ => "bool"
  | .arr _ => "[]interface \x7b\x7d"
  | .smap _ => "map[string]interface \x7b\x7d"
  | .gmap _ => "map[interface \x7b\x7d]interface \x7b\x7d"

/-- The comma-ok read `v, ok := m[key]` on a `map[string]interface{}`. -/
def mapIndex : Fields → String → Option Value
  | [], _ => none
  | (k, v) :: rest, key => if k = key then some v else mapIndex rest key

/-- The comma-ok read `v, ok := m[key]` on a `map[interface{}]interface{}`
with a string as the key. -/
def gmapIndex : GFields → String → Option Value
  | [], _ => none
  | (k, v) :: rest, key => if k = GKey.str key then some v else gmapIndex rest key

/-- The assignment `m[key] = value`. -/
def mapAssign : Fields → String → Value → Fields
  | [], key, value => [(key, value)]
  | (k, v) :: rest, key, value =>
    if k = key then (k, value) :: rest else (k, v) :: mapAssign rest key value

/-- The builtin `delete(m, key)`. -/
def mapDelete : Fields → String → Fields
  | [], _ => []
  | (k, v) :: rest, key =>
    if k = key then mapDelete rest key else (k, v) :: mapDelete rest key

/-! ## Strings -/

/-- The function `strings.Split(s, sep)` for a one-character separator, on
character lists: cut at every occurrence of the separator. -/
def splitChars (sep : Char) : List Char → List (List Char)
  | [] => [[]]
  | c :: cs =>
    if c = sep then [] :: splitChars sep cs
    else
      match splitChars sep cs with
      | [] => [[c]]
      | h :: t => (c :: h) :: t

/-- The function `strings.Split(s, ".")`. -/
def Split (s : String) : List String :=
  (splitChars '.' s.data).map String.mk

/-- The function `strings.Join(elems, sep)`. -/
def Join : List String → String → String
  | [], _ => ""
  | [e], _ => e
  | e :: rest, sep => e ++ sep ++ Join rest sep

/-- The function `strings.TrimPrefix(s, ".")`. -/
def TrimPrefix (s : String) : String :=
  match s.data with
  | c :: rest => if c = '.' then String.mk rest else s
  | [] => s

/-- The function `unicode.IsSpace`. -/
def isSpace (c : Char) : Bool :=
  let n := c.toNat
  (9 ≤ n ∧ n ≤ 13) ∨ n = 0x20 ∨ n = 0x85 ∨ n = 0xA0 ∨ n = 0x1680 ∨ (0x2000 ≤ n ∧ n ≤ 0x200A)
    ∨ n = 0x2028 ∨ n = 0x2029 ∨ n = 0x202F ∨ n = 0x205F ∨ n = 0x3000

/-- The function `strings.TrimSpace`. -/
def TrimSpace (s : String) : String :=
  String.mk ((s.data.dropWhile isSpace).reverse.dropWhile isSpace).reverse

/-- Cut a text at the first occurrence of a separator character: what stands
before it and what stands after it; `none` when it does not occur. -/
def cutAt (sep : Char) : List Char → Option (List Char × List Char)
  | [] => none
  | c :: cs =>
    if c = sep then some ([], cs)
    else
      match cutAt sep cs with
      | some (a, b) => some (c :: a, b)
      | none => none

/-- The call `strings.SplitN(s, "=", 2)`. -/
def SplitN (s : String) : List String :=
  match cutAt '=' s.data with
  | some (a, b) => [String.mk a, String.mk b]
  | none => [s]

/-- The function `strings.HasPrefix`. -/
def HasPrefix (s pre : String) : Bool := pre.data.isPrefixOf s.data

/-- The function `strings.HasSuffix`. -/
def HasSuffix (s suf : String) : Bool := suf.data.isSuffixOf s.data

/-- The call `strings.Contains(s, ".")`. -/
def ContainsDot (s : String) : Bool := decide ('.' ∈ s.data)

/-- The slice expression `s[lo:hi]`, which panics (`none`) unless
`lo ≤ hi ≤ len(s)`. -/
def slice (s : String) (lo hi : Nat) : Option String :=
  if lo ≤ hi ∧ hi ≤ s.data.length then some (String.mk ((s.data.take hi).drop lo)) else none

/-! ## strconv -/

/-- The number of significant bits of a number, with fuel. -/
def bitLenFuel : Nat → Nat → Nat
  | 0, _ => 0
  | fuel + 1, n => if n = 0 then 0 else 1 + bitLenFuel fuel (n / 2)

/-- The number of significant bits of a number: `bits.Len`. -/
def bitLen (n : Nat) : Nat := bitLenFuel n n

/-- The float64 nearest to the positive rational `num / den`, as its bit
pattern without the sign bit, rounding ties to even (IEEE 754); `none` when
the rounded value is beyond the largest finite float64.  With `e` the binary
exponent of `num / den` (`2^e ≤ num / den < 2^(e+1)`) and
`q = max (e - 52) (-1074)` the exponent of the spacing of the float64 values
there, the result is `m * 2^q` for the integer `m` nearest to
`num / (den * 2^q)`; `qb` is `q + 1074`. -/
def roundMagnitude (num den : Nat) : Option Nat :=
  let ln := bitLen num
  let ld := bitLen den
  let c : Nat := if den * 2 ^ (ln - ld) ≤ num * 2 ^ (ld - ln) then 0 else 1
  let qb : Nat := ln + 1022 - ld - c
  let a : Nat := num * 2 ^ (1074 - qb)
  let b : Nat := den * 2 ^ (qb - 1074)
  let m0 : Nat := a / b
  let r : Nat := a % b
  let m : Nat := if b < 2 * r ∨ (2 * r = b ∧ m0 % 2 = 1) then m0 + 1 else m0
  let bits : Nat := qb * 2 ^ 52 + m
  if 2047 * 2 ^ 52 ≤ bits then none else some bits

/-- The float64 nearest to `± num / den`, as its bit pattern; `none` when out
of range. -/
def roundFloat64 (neg : Bool) (num den : Nat) : Option Nat :=
  let sign : Nat := if neg then 2 ^ 63 else 0
  if num = 0 then some sign
  else
    match roundMagnitude num den with
    | some bits => some (sign + bits)
    | none => none

/-- The integer part of a float64 given by its bit pattern, toward zero;
`none` for a NaN or an infinity. -/
def truncFloat64 (bits : Nat) : Option Int :=
  let neg : Bool := decide (bits / 2 ^ 63 % 2 = 1)
  let be : Nat := bits / 2 ^ 52 % 2048
  let frac : Nat := bits % 2 ^ 52
  if be = 2047 then none
  else
    let m : Nat := if be = 0 then frac else frac + 2 ^ 52
    let e : Nat := if be = 0 then 1 else be
    let mag : Nat := if 1075 ≤ e then m * 2 ^ (e - 1075) else m / 2 ^ (1075 - e)
    some (if neg then -(mag : Int) else (mag : Int))

/-- The conversion `int64(f)` of a float64 given by its bit pattern:
truncation toward zero.  For a NaN, an infinity or a value outside the int64
range the Go specification leaves the result to the implementation; the value
given here, the smallest int64, is what amd64 produces. -/
def int64OfFloat64 (bits : Nat) : Int :=
  match truncFloat64 bits with
  | some v => if -(2 ^ 63) ≤ v ∧ v < 2 ^ 63 then v else -(2 ^ 63)
  | none => -(2 ^ 63)

/-- The helper `commonPrefixLenIgnoreCase` of strconv; the second argument is
in lower case. -/
def commonPrefixLenIgnoreCase : List Char → List Char → Nat
  | c :: s, p :: pre => if c.toLower = p then 1 + commonPrefixLenIgnoreCase s pre else 0
  | _, _ => 0

/-- The part of `special` after the sign: `inf` or `infinity` in any case. -/
def specialInf (neg : Bool) (nsign : Nat) (s : List Char) : Option (Nat × Nat) :=
  let n := commonPrefixLenIgnoreCase s "infinity".data
  let n := if 3 < n ∧ n < 8 then 3 else n
  if n = 3 ∨ n = 8 then some ((if neg then 2 ^ 63 else 0) + 2047 * 2 ^ 52, nsign + n)
  else none

/-- The function `special` of strconv: the bit pattern of the infinity or NaN
that the text starts with, and the number of characters it takes. -/
def special (s : List Char) : Option (Nat × Nat) :=
  match s with
  | [] => none
  | c :: rest =>
    if c = '+' ∨ c = '-' then specialInf (decide (c = '-')) 1 rest
    else if c = 'i' ∨ c = 'I' then specialInf false 0 s
    else if c = 'n' ∨ c = 'N' then
      if commonPrefixLenIgnoreCase s "nan".data = 3 then some (0x7FF8000000000001, 3) else none
    else none

/-- The function `underscoreOK` of strconv, after the sign and the base
prefix: `saw` is the last kind of character seen (`0` digit, `_` underscore,
`!` other). -/
def underscoreLoop (hex : Bool) : List Char → Char → Bool
  | [], saw => saw ≠ '_'
  | c :: cs, saw =>
    if ('0' ≤ c ∧ c ≤ '9') ∨ (hex ∧ 'a' ≤ c.toLower ∧ c.toLower ≤ 'f') then
      underscoreLoop hex cs '0'
    else if c = '_' then
      if saw ≠ '0' then false else underscoreLoop hex cs '_'
    else if saw = '_' then false
    else underscoreLoop hex cs '!'

/-- The function `underscoreOK` of strconv. -/
def underscoreOK (s : List Char) : Bool :=
  let s1 := match s with
    | c :: rest => if c = '-' ∨ c = '+' then rest else s
    | [] => s
  match s1 with
  | a :: b :: rest =>
    if a = '0' ∧ (b.toLower = 'b' ∨ b.toLower = 'o' ∨ b.toLower = 'x') then
      underscoreLoop (decide (b.toLower = 'x')) rest '0'
    else underscoreLoop false s1 '^'
  | _ => underscoreLoop false s1 '^'

/-- What `readFloat` has read of the mantissa. -/
structure Mantissa where
  underscores : Bool
  sawdot : Bool
  sawdigits : Bool
  mant : Nat
  frac : Nat
  deriving DecidableEq, Repr

/-- The mantissa loop of `readFloat`.  Go keeps the first 19 digits (16 in
base 16) and a flag for dropped ones, and turns to the whole text again when
those do not settle the rounding; the model keeps every digit: `mant` is the
number the digits spell in the base and `frac` counts those after the point. -/
def scanMantissa (hex : Bool) : List Char → Mantissa → Mantissa × List Char
  | [], st => (st, [])
  | c :: cs, st =>
    if c = '_' then scanMantissa hex cs { st with underscores := true }
    else if c = '.' then
      if st.sawdot then (st, c :: cs) else scanMantissa hex cs { st with sawdot := true }
    else if '0' ≤ c ∧ c ≤ '9' then
      scanMantissa hex cs
        { st with sawdigits := true,
                  mant := st.mant * (if hex then 16 else 10) + (c.toNat - 48),
                  frac := st.frac + (if st.sawdot then 1 else 0) }
    else if hex ∧ 'a' ≤ c.toLower ∧ c.toLower ≤ 'f' then
      scanMantissa hex cs
        { st with sawdigits := true,
                  mant := st.mant * 16 + (c.toLower.toNat - 97 + 10),
                  frac := st.frac + (if st.sawdot then 1 else 0) }
    else (st, c :: cs)

/-- The exponent loop of `readFloat`: the exponent read so far (no longer
updated once it has reached 10000), whether an underscore was seen, and the
text left. -/
def scanExponent : List Char → Nat → Bool → Nat × Bool × List Char
  | [], e, u => (e, u, [])
  | c :: cs, e, u =>
    if '0' ≤ c ∧ c ≤ '9' then
      scanExponent cs (if e < 10000 then e * 10 + (c.toNat - 48) else e) u
    else if c = '_' then scanExponent cs e true
    else (e, u, c :: cs)

/-- The number that `readFloat` has read: `± mant * base^(-frac) * b^exp` with
`b` 10 for a decimal and 2 for a hexadecimal text. -/
structure FloatText where
  neg : Bool
  hex : Bool
  mant : Nat
  frac : Nat
  exp : Int
  deriving DecidableEq, Repr

/-- The end of `readFloat`: the underscore check on the text read. -/
def readFloatEnd (s : List Char) (underscores : Bool) (t : FloatText) (rest : List Char) :
    Option (FloatText × List Char) :=
  if underscores ∧ ¬ underscoreOK (s.take (s.length - rest.length)) then none
  else some (t, rest)

/-- The test for the base prefix in `readFloat`:
`i+2 < len(s) && s[i] == '0' && lower(s[i+1]) == 'x'`. -/
def hasHexPrefix : List Char → Bool
  | a :: b :: _ :: _ => decide (a = '0' ∧ (b = 'x' ∨ b = 'X'))
  | _ => false

/-- The part of `readFloat` after the sign: `s` is the whole text, `s1` the
text after the sign. -/
def readNumber (s : List Char) (neg : Bool) (s1 : List Char) :
    Option (FloatText × List Char) :=
  let hex : Bool := hasHexPrefix s1
  let s2 := if hex then s1.drop 2 else s1
  let r := scanMantissa hex s2 ⟨false, false, false, 0, 0⟩
  let m := r.1
  if ¬ m.sawdigits then none
  else
    match r.2 with
    | c :: s4 =>
      if (¬ hex ∧ (c = 'e' ∨ c = 'E')) ∨ (hex ∧ (c = 'p' ∨ c = 'P')) then
        match s4 with
        | [] => none
        | d :: s5 =>
          let s6 := if d = '+' ∨ d = '-' then s5 else s4
          match s6 with
          | [] => none
          | x :: _ =>
            if ¬ ('0' ≤ x ∧ x ≤ '9') then none
            else
              let er := scanExponent s6 0 m.underscores
              let exp : Int := if d = '-' then -(er.1 : Int) else (er.1 : Int)
              readFloatEnd s er.2.1 ⟨neg, hex, m.mant, m.frac, exp⟩ er.2.2
      else if hex then none
      else readFloatEnd s m.underscores ⟨neg, hex, m.mant, m.frac, 0⟩ (c :: s4)
    | [] =>
      if hex then none
      else readFloatEnd s m.underscores ⟨neg, hex, m.mant, m.frac, 0⟩ []

/-- The function `readFloat` of strconv: the number read and the text left
after it, `none` when `ok` is false. -/
def readFloat (s : List Char) : Option (FloatText × List Char) :=
  match s with
  | [] => none
  | c0 :: tl => readNumber s (decide (c0 = '-')) (if c0 = '+' ∨ c0 = '-' then tl else s)

/-- The float64 that a text read by `readFloat` denotes, correctly rounded;
`none` for a range error. -/
def FloatText.toFloat64 (t : FloatText) : Option Nat :=
  let b : Nat := if t.hex then 2 else 10
  let x : Int := t.exp - (if t.hex then 4 * (t.frac : Int) else (t.frac : Int))
  if 0 ≤ x then roundFloat64 t.neg (t.mant * b ^ x.toNat) 1
  else roundFloat64 t.neg t.mant (b ^ (-x).toNat)

/-- The function `strconv.ParseFloat(s, 64)`: the bit pattern of the float64
when the returned error is nil, `none` when it is not (syntax or range). -/
def ParseFloat (s : String) : Option Nat :=
  match special s.data with
  | some (bits, n) => if n = s.data.length then some bits else none
  | none =>
    match readFloat s.data with
    | none => none
    | some (t, rest) => if rest = [] then t.toFloat64 else none

/-! ## internal/query -/

/-- A parsed query path. -/
structure Query where
  parts : List String
  deriving DecidableEq, Repr

/-- The constructor `query.New`. -/
def New (path : String) : Except String Query :=
  if path = "" then .error "query path cannot be empty"
  else
    let path := TrimPrefix path
    if path = "" then .ok ⟨[]⟩
    else .ok ⟨Split path⟩

/-- The method `Query.Parts`. -/
def Query.Parts (q : Query) : List String := q.parts

/-- The loop of `Query.Execute` over the remaining parts, from the current
value. -/
def executeLoop : List String → Value → Except String Value
  | [], current => .ok current
  | part :: rest, current =>
    match current with
    | .smap v =>
      match mapIndex v part with
      | some next => executeLoop rest next
      | none => .error ("key '" ++ part ++ "' not found")
    | .gmap v =>
      match gmapIndex v part with
      | some next => executeLoop rest next
      | none => .error ("key '" ++ part ++ "' not found")
    | .arr _ => .error ("cannot navigate into array at '" ++ part ++ "'")
    | other => .error ("cannot navigate into " ++ typeName other ++ " at '" ++ part ++ "'")

/-- The method `Query.Execute`. -/
def Query.Execute (q : Query) (data : Value) : Except String Value :=
  match data with
  | .nil => .error "data cannot be nil"
  | data => executeLoop q.parts data

/-- The method `Query.String` (declared last among the methods of `Query`, so
that `String` keeps meaning the string type in the ones above). -/
def Query.String (q : Query) : String :=
  if q.parts.length = 0 then "." else "." ++ Join q.parts "."

/-! ## internal/modifier -/

/-- The loop of `setValueAtPath` followed by the final assignment.  `i` is the
loop index, the list is what is left of `path[:len(path)-1]`, the mapping is
`current`.  Returns `current` after the call and the error. -/
def setLoop (path : List String) (value : Value) :
    Nat → List String → Fields → Fields × Option String
  | _, [], current => (mapAssign current (path.getLastD "") value, none)
  | i, key :: rest, current =>
    match mapIndex current key with
    | some next =>
      match next with
      | .smap nextMap =>
        let r := setLoop path value (i + 1) rest nextMap
        (mapAssign current key (.smap r.1), r.2)
      | _ =>
        (current, some ("cannot navigate into " ++ typeName next ++ " at "
          ++ Join (path.take (i + 1)) "."))
    | none =>
      let r := setLoop path value (i + 1) rest []
      (mapAssign current key (.smap r.1), r.2)

/-- The method `Modifier.setValueAtPath`: the root mapping after the call and
the returned error. -/
def setValueAtPath (data : Fields) (path : List String) (value : Value) :
    Fields × Option String :=
  if path.length = 0 then (data, some "cannot set root value")
  else setLoop path value 0 path.dropLast data

/-- The loop of `deleteValueAtPath` followed by the final removal. -/
def deleteLoop (path : List String) :
    Nat → List String → Fields → Fields × Option String
  | _, [], current =>
    match mapIndex current (path.getLastD "") with
    | none => (current, some ("key not found: " ++ Join path "."))
    | some _ => (mapDelete current (path.getLastD ""), none)
  | i, key :: rest, current =>
    match mapIndex current key with
    | some next =>
      match next with
      | .smap nextMap =>
        let r := deleteLoop path (i + 1) rest nextMap
        (mapAssign current key (.smap r.1), r.2)
      | _ =>
        (current, some ("cannot navigate into " ++ typeName next ++ " at "
          ++ Join (path.take (i + 1)) "."))
    | none => (current, some ("path not found: " ++ Join (path.take (i + 1)) "."))

/-- The method `Modifier.deleteValueAtPath`: the root mapping after the call
and the returned error. -/
def deleteValueAtPath (data : Fields) (path : List String) :
    Fields × Option String :=
  if path.length = 0 then (data, some "cannot delete root value")
  else deleteLoop path 0 path.dropLast data

/-- The function `parseValue`: the value and the error it returns. -/
def parseValue (s : String) : Value × Option String :=
  let cs := s.data
  if 2 ≤ cs.length ∧
      ((cs.head? = some (Char.ofNat 34) ∧ cs.getLast? = some (Char.ofNat 34)) ∨
        (cs.head? = some (Char.ofNat 39) ∧ cs.getLast? = some (Char.ofNat 39))) then
    (.str (String.mk ((cs.take (cs.length - 1)).drop 1)), none)
  else if s = "true" then (.bool true, none)
  else if s = "false" then (.bool false, none)
  else
    match ParseFloat s with
    | some num =>
      if ContainsDot s then (.float num, none)
      else (.int (int64OfFloat64 num), none)
    | none => (.str s, none)

/-- The method `Modifier.SetValue`: the root mapping after the call and the
returned error. -/
def SetValue (data : Fields) (setExpr : String) : Fields × Option String :=
  match SplitN setExpr with
  | [left, right] =>
    let path := TrimSpace left
    let valueStr := TrimSpace right
    match New path with
    | .error err => (data, some ("invalid path in set expression: " ++ err))
    | .ok q =>
      match parseValue valueStr with
      | (_, some err) => (data, some ("invalid value in set expression: " ++ err))
      | (value, none) => setValueAtPath data q.Parts value
  | _ => (data, some ("invalid set expression: " ++ setExpr ++ " (expected: .key = value)"))

/-- The method `Modifier.DeleteValue`: the root mapping after the call and the
returned error; `none` when the slice expression panics. -/
def DeleteValue (data : Fields) (deleteExpr : String) : Option (Fields × Option String) :=
  if ¬ HasPrefix deleteExpr "del(" ∨ ¬ HasSuffix deleteExpr ")" then
    some (data, some ("invalid delete expression: " ++ deleteExpr ++ " (expected: del(.key))"))
  else
    match slice deleteExpr 4 (deleteExpr.data.length - 1) with
    | none => none
    | some pathStr =>
      match New pathStr with
      | .error err => some (data, some ("invalid path in delete expression: " ++ err))
      | .ok q => some (deleteValueAtPath data q.Parts)

/-! ## More of strings -/

/-- Whether a text occurs somewhere in another, on character lists. -/
def containsChars : List Char → List Char → Bool
  | sub, [] => sub.isEmpty
  | sub, c :: cs => sub.isPrefixOf (c :: cs) || containsChars sub cs

/-- The function `strings.Contains`. -/
def Contains (s sub : String) : Bool := containsChars sub.data s.data

/-- The function `strings.ToLower`.  `table` is `unicode.ToLower` on the
characters beyond ASCII, whose table is not part of the repository. -/
def ToLower (table : Char → Char) (s : String) : String :=
  String.mk (s.data.map (fun c => if c.toNat < 128 then c.toLower else table c))

/-! ## internal/converter -/

/-- The type `OutputFormat`, an `int`. -/
abbrev OutputFormat := Int

/-- The constant `FormatTOML`. -/
def FormatTOML : OutputFormat := 0

/-- The constant `FormatJSON`. -/
def FormatJSON : OutputFormat := 1

/-- The constant `FormatYAML`. -/
def FormatYAML : OutputFormat := 2

/-- The function `ParseOutputFormat`: the format and the error it returns. -/
def ParseOutputFormat (table : Char → Char) (s : String) : OutputFormat × Option String :=
  let l := ToLower table s
  if l = "toml" then (FormatTOML, none)
  else if l = "json" then (FormatJSON, none)
  else if l = "yaml" ∨ l = "yml" then (FormatYAML, none)
  else (FormatTOML,
    some ("unsupported output format: " ++ s ++ " (supported: toml, json, yaml)"))

/-- The method `OutputFormat.String`. -/
def OutputFormat.String (f : OutputFormat) : String :=
  if f = FormatTOML then "toml"
  else if f = FormatJSON then "json"
  else if f = FormatYAML then "yaml"
  else "unknown"

/-! ## cmd/tmq -/

/-- The package-level variables of `cmd/tmq`. -/
structure Globals where
  outputFormat : OutputFormat
  inplace : Bool
  operation : String
  operationArg : String
  dryRun : Bool
  deriving DecidableEq, Repr

/-- The flag variables local to `main`. -/
structure MainFlags where
  validateMode : Bool
  compareMode : Bool
  compareFile : String
  schemaFile : String
  deriving DecidableEq, Repr

/-- The second pass of `main` over the arguments, which processes the flags;
an error is the code of an `os.Exit`. -/
def secondPass (table : Char → Char) :
    List String → Globals → MainFlags → Except Nat (Globals × MainFlags)
  | [], g, f => .ok (g, f)
  | arg :: rest, g, f =>
    if arg = "-h" ∨ arg = "--help" then .error 0
    else if arg = "--version" then .error 0
    else if arg = "-i" ∨ arg = "--inplace" then secondPass table rest { g with inplace := true } f
    else if arg = "--validate" then secondPass table rest g { f with validateMode := true }
    else if arg = "--compare" then
      match rest with
      | [] => .error 2
      | value :: rest2 =>
        secondPass table rest2 g { f with compareMode := true, compareFile := value }
    else if arg = "--schema" then
      match rest with
      | [] => .error 2
      | value :: rest2 => secondPass table rest2 g { f with schemaFile := value }
    else if arg = "--dry-run" then secondPass table rest { g with dryRun := true } f
    else if arg = "-o" ∨ arg = "--output" then
      match rest with
      | [] => .error 2
      | value :: rest2 =>
        match ParseOutputFormat table value with
        | (_, some _) => .error 2
        | (format, none) => secondPass table rest2 { g with outputFormat := format } f
    else if HasPrefix arg "-o=" then
      match ParseOutputFormat table (String.mk (arg.data.drop 3)) with
      | (_, some _) => .error 2
      | (format, none) => secondPass table rest { g with outputFormat := format } f
    else secondPass table rest g f

/-- The test that `main` makes on the last positional argument to take it as
the operation. -/
def looksLikeOperation (lastArg : String) : Bool :=
  Contains lastArg "=" || HasPrefix lastArg "del(" || HasPrefix lastArg "."
    || Contains lastArg "[" || Contains lastArg "]"

/-- The function `determineOperation`. -/
def determineOperation (arg : String) : String :=
  if Contains arg "=" then "set"
  else if HasPrefix arg "del(" ∧ HasSuffix arg ")" then "delete"
  else "query"

/-- The call with which `main` ends. -/
inductive Call where
  | handleSingleFile (filePath : String) (useStdin validateMode compareMode : Bool)
      (schemaFile compareFile : String)
  | handleBulkFiles (filePaths : List String) (validateMode : Bool)
  deriving DecidableEq, Repr

/-- The function `main` on the arguments `os.Args[1:]`: the package-level
variables it sets and the call it ends with, or the code of an `os.Exit`
during the flags. -/
def main (table : Char → Char) (args : List String) : Except Nat (Globals × Call) :=
  let positional := args.filter (fun arg => !HasPrefix arg "-")
  match secondPass table args ⟨FormatTOML, false, "", "", false⟩ ⟨false, false, "", ""⟩ with
  | .error code => .error code
  | .ok (g, f) =>
    let r : Globals × List String :=
      match positional.getLast? with
      | some lastArg =>
        if looksLikeOperation lastArg then
          ({ g with operationArg := lastArg, operation := determineOperation lastArg },
            positional.dropLast)
        else (g, positional)
      | none => (g, [])
    let g2 : Globals := if r.1.operationArg = "" then { r.1 with operation := "query" } else r.1
    match r.2 with
    | [] => .ok (g2, .handleSingleFile "" true f.validateMode f.compareMode f.schemaFile
        f.compareFile)
    | [filePath] => .ok (g2, .handleSingleFile filePath false f.validateMode f.compareMode
        f.schemaFile f.compareFile)
    | filePaths => .ok (g2, .handleBulkFiles filePaths f.validateMode)

/-- The function `validateFilePath`: the error it returns.  `stat` is
`os.Stat`: the size of the file when the call succeeds. -/
def validateFilePath (stat : String → Option Nat) (path : String) : Option String :=
  if Contains path ".." then some "directory traversal not allowed"
  else if HasPrefix path "/" ∧
      (HasPrefix path "/etc/" ∨ HasPrefix path "/usr/" ∨ HasPrefix path "/var/" ∨
        HasPrefix path "/proc/" ∨ HasPrefix path "/sys/" ∨ HasPrefix path "/dev/") then
    some "access to system directories not allowed"
  else
    match stat path with
    | some size =>
      if size > 100 * 1024 * 1024 then some "file too large (max 100MB)" else none
    | none => none

/-- What a handler of operations does to the world outside: the call of
`writeTOMLFile` it makes, the code of the `os.Exit` it ends with, and the error
it returns. -/
structure Effect where
  written : Option (String × Fields)
  exit : Option Nat
  err : Option String
  deriving Repr

/-- The function `outputData` as an effect: it prints, and exits with 1 when
the conversion fails (`outputFails`). -/
def outputData (outputFails : Value → OutputFormat → Bool) (data : Value)
    (format : OutputFormat) : Effect :=
  if outputFails data format then ⟨none, some 1, none⟩ else ⟨none, none, none⟩

/-- The end of the in-place branches of `handleOperations`: the write-back. -/
def writeBack (writeErr : String → Fields → Option String) (filePath : String)
    (dataMap : Fields) : Effect :=
  match writeErr filePath dataMap with
  | some _ => ⟨some (filePath, dataMap), some 4, none⟩
  | none => ⟨some (filePath, dataMap), none, none⟩

/-- The branches of `handleOperations` for `set` and `delete`, from the
result of the modifier. -/
def afterModifier (outputFails : Value → OutputFormat → Bool)
    (writeErr : String → Fields → Option String) (g : Globals) (filePath : String)
    (useStdin : Bool) (r : Fields × Option String) : Effect :=
  if g.dryRun then
    match r.2 with
    | some _ => ⟨none, some 1, none⟩
    | none => outputData outputFails (.smap r.1) g.outputFormat
  else if g.inplace ∧ ¬ useStdin then
    match r.2 with
    | some _ => ⟨none, some 1, none⟩
    | none => writeBack writeErr filePath r.1
  else
    match r.2 with
    | some _ => ⟨none, some 1, none⟩
    | none => outputData outputFails (.smap r.1) g.outputFormat

/-- The function `handleOperations`; `none` when it panics.  `outputFails`
tells whether the conversion in `outputData` fails and `writeErr` is the error
of `writeTOMLFile`. -/
def handleOperations (outputFails : Value → OutputFormat → Bool)
    (writeErr : String → Fields → Option String) (g : Globals) (data : Value)
    (dataMap : Fields) (filePath : String) (useStdin : Bool) : Option Effect :=
  if g.operation = "query" then
    if g.operationArg = "" then
      some ⟨none, some (if outputFails data g.outputFormat then 1 else 0), none⟩
    else
      match New g.operationArg with
      | .error _ => some ⟨none, some 2, none⟩
      | .ok q =>
        match q.Execute data with
        | .error _ => some ⟨none, some 1, none⟩
        | .ok result => some (outputData outputFails result g.outputFormat)
  else if g.operation = "set" then
    some (afterModifier outputFails writeErr g filePath useStdin
      (SetValue dataMap g.operationArg))
  else if g.operation = "delete" then
    match DeleteValue dataMap g.operationArg with
    | none => none
    | some r => some (afterModifier outputFails writeErr g filePath useStdin r)
  else some ⟨none, some 2, none⟩

/-- The branches of `handleOperationsBulk` for `set` and `delete`, from the
result of the modifier; `word` is `set` or `delete`. -/
def afterModifierBulk (outputFails : Value → OutputFormat → Bool)
    (writeErr : String → Fields → Option String) (g : Globals) (filePath : String)
    (word : String) (r : Fields × Option String) : Effect :=
  if g.dryRun then
    match r.2 with
    | some e => ⟨none, none, some (word ++ " operation would fail: " ++ e)⟩
    | none => outputData outputFails (.smap r.1) g.outputFormat
  else if g.inplace then
    match r.2 with
    | some e => ⟨none, none, some (word ++ " operation failed: " ++ e)⟩
    | none =>
      match writeErr filePath r.1 with
      | some e =>
        ⟨some (filePath, r.1), none, some ("failed to write file '" ++ filePath ++ "': " ++ e)⟩
      | none => ⟨some (filePath, r.1), none, none⟩
  else ⟨none, none, some ("bulk " ++ word ++ " operations require -i (in-place) flag")⟩

/-- The function `handleOperationsBulk`; `none` when it panics. -/
def handleOperationsBulk (outputFails : Value → OutputFormat → Bool)
    (writeErr : String → Fields → Option String) (g : Globals) (data : Value)
    (dataMap : Fields) (filePath : String) : Option Effect :=
  if g.operation = "query" then
    if g.operationArg = "" then some (outputData outputFails data g.outputFormat)
    else
      match New g.operationArg with
      | .error e =>
        some ⟨none, none, some ("invalid query syntax '" ++ g.operationArg ++ "': " ++ e)⟩
      | .ok q =>
        match q.Execute data with
        | .error e =>
          some ⟨none, none,
            some ("query execution failed for '" ++ g.operationArg ++ "': " ++ e)⟩
        | .ok result => some (outputData outputFails result g.outputFormat)
  else if g.operation = "set" then
    if ¬ g.dryRun ∧ ¬ g.inplace then
      some ⟨none, none, some "bulk set operations require -i (in-place) flag"⟩
    else
      some (afterModifierBulk outputFails writeErr g filePath "set"
        (SetValue dataMap g.operationArg))
  else if g.operation = "delete" then
    if ¬ g.dryRun ∧ ¬ g.inplace then
      some ⟨none, none, some "bulk delete operations require -i (in-place) flag"⟩
    else
      match DeleteValue dataMap g.operationArg with
      | none => none
      | some r => some (afterModifierBulk outputFails writeErr g filePath "delete" r)
  else some ⟨none, none,
    some ("operation '" ++ g.operation ++ "' not supported for bulk operations")⟩

/-! ## Vocabulary of the statements -/

/-- The walk that `setValueAtPath` and `deleteValueAtPath` share on the
segments before the last: from a string-keyed mapping, follow each key as long
as it exists and holds a string-keyed mapping. -/
def descend : Fields → List String → Option Fields
  | m, [] => some m
  | m, key :: rest =>
    match mapIndex m key with
    | some (.smap next) => descend next rest
    | _ => none

/-- The chain `{s1: {s2: ... {sn: v}}}` of one-key string-keyed mappings. -/
def chain : List String → Value → Value
  | [], v => v
  | s :: rest, v => .smap [(s, chain rest v)]

/-- A sequence or a scalar (string, integer, float, boolean). -/
def Value.isSeqOrScalar : Value → Bool
  | .arr _ => true
  | .str _ => true
  | .int _ => true
  | .float _ => true
  | .bool _ => true
  | _ => false

/-- A string-keyed mapping, the one dynamic type the type assertion
`current[key].(map[string]interface{})` of the write walks accepts. -/
def Value.isStringKeyedMapping : Value → Bool
  | .smap _ => true
  | _ => false

mutual
/-- A document tree all of whose mappings are string-keyed: a scalar (string,
integer, float, boolean), a sequence of such trees, or a string-keyed mapping
to such trees. -/
def Value.stringKeyed : Value → Bool
  | .nil => false
  | .gmap _ => false
  | .arr items => stringKeyedItems items
  | .smap m => stringKeyedFields m
  | _ => true
termination_by structural v => v
/-- Every element of a sequence is a string-keyed tree. -/
def stringKeyedItems : List Value → Bool
  | [] => true
  | x :: rest => x.stringKeyed && stringKeyedItems rest
termination_by structural l => l
/-- Every value of a string-keyed mapping is a string-keyed tree. -/
def stringKeyedFields : List (String × Value) → Bool
  | [] => true
  | (_, x) :: rest => x.stringKeyed && stringKeyedFields rest
termination_by structural l => l
end

mutual
/-- The tree with every string-keyed mapping turned into the generic-keyed
mapping of the same string keys and values.  Two trees differ only in the
representation of their mappings when they have the same image. -/
def Value.toGeneric : Value → Value
  | .arr items => .arr (toGenericItems items)
  | .smap m => .gmap (toGenericFields m)
  | .gmap m => .gmap (toGenericGFields m)
  | v => v
termination_by structural v => v
/-- The image of every element of a sequence. -/
def toGenericItems : List Value → List Value
  | [] => []
  | x :: rest => x.toGeneric :: toGenericItems rest
termination_by structural l => l
/-- The entries of a string-keyed mapping as generic-keyed entries. -/
def toGenericFields : List (String × Value) → List (GKey × Value)
  | [] => []
  | (k, x) :: rest => (GKey.str k, x.toGeneric) :: toGenericFields rest
termination_by structural l => l
/-- The image of every value of a generic-keyed mapping. -/
def toGenericGFields : List (GKey × Value) → List (GKey × Value)
  | [] => []
  | (k, x) :: rest => (k, x.toGeneric) :: toGenericGFields rest
termination_by structural l => l
end

/-- The ASCII letters. -/
def asciiLetters : List Char :=
  "abcdefghijklmnopqrstuvwxyzABCDEFGHIJKLMNOPQRSTUVWXYZ".data

/-- The decimal digits. -/
def decimalDigits : List Char := ['0', '1', '2', '3', '4', '5', '6', '7', '8', '9']

/-- The decimal text of an integer, as `strconv.FormatInt(n, 10)` writes it. -/
def decimalText : Int → String
  | .ofNat m => Nat.repr m
  | .negSucc m => "-" ++ Nat.repr (m + 1)

/-! ## Maps -/

theorem mapIndex_mapAssign_self (m : Fields) (k : String) (v : Value) :
    mapIndex (mapAssign m k v) k = some v := by
  induction m with
  | nil => simp [mapAssign, mapIndex]
  | cons e rest ih =>
    obtain ⟨k0, v0⟩ := e
    by_cases h : k0 = k
    · simp [mapAssign, mapIndex, h]
    · simp [mapAssign, mapIndex, h, ih]

theorem mapIndex_mapAssign_ne (m : Fields) (k k2 : String) (v : Value) (hne : k ≠ k2) :
    mapIndex (mapAssign m k v) k2 = mapIndex m k2 := by
  induction m with
  | nil => simp [mapAssign, mapIndex, hne]
  | cons e rest ih =>
    obtain ⟨k0, v0⟩ := e
    by_cases h : k0 = k
    · subst h
      simp [mapAssign, mapIndex, hne]
    · by_cases h2 : k0 = k2
      · subst h2
        simp [mapAssign, mapIndex, h]
      · simp [mapAssign, mapIndex, h, h2, ih]

theorem mapIndex_mapDelete_self (m : Fields) (k : String) :
    mapIndex (mapDelete m k) k = none := by
  induction m with
  | nil => simp [mapDelete, mapIndex]
  | cons e rest ih =>
    obtain ⟨k0, v0⟩ := e
    by_cases h : k0 = k
    · simp [mapDelete, h, ih]
    · simp [mapDelete, mapIndex, h, ih]

theorem mapIndex_mapDelete_ne (m : Fields) (k k2 : String) (hne : k ≠ k2) :
    mapIndex (mapDelete m k) k2 = mapIndex m k2 := by
  induction m with
  | nil => simp [mapDelete, mapIndex]
  | cons e rest ih =>
    obtain ⟨k0, v0⟩ := e
    by_cases h : k0 = k
    · subst h
      simp [mapDelete, mapIndex, hne, ih]
    · by_cases h2 : k0 = k2
      · subst h2
        simp [mapDelete, mapIndex, h]
      · simp [mapDelete, mapIndex, h, h2, ih]

/-- Writing back the value a key already holds changes nothing. -/
theorem mapAssign_same (m : Fields) (k : String) (v : Value)
    (h : mapIndex m k = some v) : mapAssign m k v = m := by
  induction m with
  | nil => simp [mapIndex] at h
  | cons e rest ih =>
    obtain ⟨k0, v0⟩ := e
    by_cases hk : k0 = k
    · simp [mapIndex, hk] at h
      simp [mapAssign, hk, h]
    · simp [mapIndex, hk] at h
      simp [mapAssign, hk, ih h]

/-! ## The read walk -/

theorem executeLoop_smap_cons (m : Fields) (part : String) (rest : List String) :
    executeLoop (part :: rest) (.smap m) =
      match mapIndex m part with
      | some next => executeLoop rest next
      | none => .error ("key '" ++ part ++ "' not found") := by
  simp only [executeLoop]

theorem executeLoop_gmap_cons (m : GFields) (part : String) (rest : List String) :
    executeLoop (part :: rest) (.gmap m) =
      match gmapIndex m part with
      | some next => executeLoop rest next
      | none => .error ("key '" ++ part ++ "' not found") := by
  simp only [executeLoop]

/-- Reading along `pre ++ rest` is reading along `pre` and going on along
`rest` from the value reached. -/
theorem executeLoop_append (pre rest : List String) (t v : Value)
    (h : executeLoop pre t = .ok v) :
    executeLoop (pre ++ rest) t = executeLoop rest v := by
  induction pre generalizing t with
  | nil =>
    simp [executeLoop] at h
    simp [h]
  | cons part pre ih =>
    cases t with
    | smap m =>
      rw [executeLoop_smap_cons] at h
      rw [List.cons_append, executeLoop_smap_cons]
      cases hm : mapIndex m part with
      | none => simp [hm] at h
      | some next =>
        simp only [hm] at h ⊢
        exact ih next h
    | gmap m =>
      rw [executeLoop_gmap_cons] at h
      rw [List.cons_append, executeLoop_gmap_cons]
      cases hm : gmapIndex m part with
      | none => simp [hm] at h
      | some next =>
        simp only [hm] at h ⊢
        exact ih next h
    | nil => simp [executeLoop] at h
    | str _ => simp [executeLoop] at h
    | int _ => simp [executeLoop] at h
    | float _ => simp [executeLoop] at h
    | bool _ => simp [executeLoop] at h
    | arr _ => simp [executeLoop] at h

/-- The shared walk of the writers is a read walk. -/
theorem executeLoop_of_descend (m c : Fields) (pre : List String)
    (h : descend m pre = some c) : executeLoop pre (.smap m) = .ok (.smap c) := by
  induction pre generalizing m with
  | nil =>
    simp [descend] at h
    simp [executeLoop, h]
  | cons key pre ih =>
    rw [executeLoop_smap_cons]
    cases hm : mapIndex m key with
    | none => simp [descend, hm] at h
    | some next =>
      cases next with
      | smap nm =>
        simp only [descend, hm] at h
        simpa using ih nm h
      | _ => simp [descend, hm] at h

/-! ## The write walk -/

theorem setLoop_nil (path : List String) (value : Value) (i : Nat) (current : Fields) :
    setLoop path value i [] current
      = (mapAssign current (path.getLastD "") value, none) := by
  simp only [setLoop]

theorem setLoop_cons_map (path : List String) (value : Value) (i : Nat) (key : String)
    (rest : List String) (current nextMap : Fields)
    (h : mapIndex current key = some (.smap nextMap)) :
    setLoop path value i (key :: rest) current
      = (mapAssign current key (.smap (setLoop path value (i + 1) rest nextMap).1),
          (setLoop path value (i + 1) rest nextMap).2) := by
  simp only [setLoop, h]

theorem setLoop_cons_absent (path : List String) (value : Value) (i : Nat) (key : String)
    (rest : List String) (current : Fields) (h : mapIndex current key = none) :
    setLoop path value i (key :: rest) current
      = (mapAssign current key (.smap (setLoop path value (i + 1) rest []).1),
          (setLoop path value (i + 1) rest []).2) := by
  simp only [setLoop, h]

theorem setLoop_cons_stuck (path : List String) (value : Value) (i : Nat) (key : String)
    (rest : List String) (current : Fields) (next : Value)
    (h : mapIndex current key = some next) (hn : ∀ nm, next ≠ .smap nm) :
    setLoop path value i (key :: rest) current
      = (current, some ("cannot navigate into " ++ typeName next ++ " at "
          ++ Join (path.take (i + 1)) ".")) := by
  cases next with
  | smap nm => exact absurd rfl (hn nm)
  | _ => simp only [setLoop, h]

/-- A walk that starts from an empty mapping cannot fail. -/
theorem setLoop_empty_ok (path : List String) (value : Value) (i : Nat)
    (rest : List String) : (setLoop path value i rest []).2 = none := by
  induction rest generalizing i with
  | nil => simp [setLoop_nil]
  | cons key rest ih =>
    rw [setLoop_cons_absent _ _ _ _ _ _ (by simp [mapIndex])]
    exact ih (i + 1)

/-- After a successful walk, reading the remaining segments and the final key
gives the value written. -/
theorem setLoop_read (path : List String) (value : Value) (i : Nat)
    (rest : List String) (current : Fields)
    (h : (setLoop path value i rest current).2 = none) :
    executeLoop (rest ++ [path.getLastD ""]) (.smap (setLoop path value i rest current).1)
      = .ok value := by
  induction rest generalizing i current with
  | nil =>
    simp [setLoop_nil, executeLoop_smap_cons, mapIndex_mapAssign_self, executeLoop]
  | cons key rest ih =>
    cases hm : mapIndex current key with
    | none =>
      rw [setLoop_cons_absent _ _ _ _ _ _ hm] at h ⊢
      simp only [List.cons_append, executeLoop_smap_cons, mapIndex_mapAssign_self]
      exact ih (i + 1) [] h
    | some next =>
      by_cases hn : ∃ nm, next = .smap nm
      · obtain ⟨nm, rfl⟩ := hn
        rw [setLoop_cons_map _ _ _ _ _ _ _ hm] at h ⊢
        simp only [List.cons_append, executeLoop_smap_cons, mapIndex_mapAssign_self]
        exact ih (i + 1) nm h
      · rw [setLoop_cons_stuck _ _ _ _ _ _ _ hm (fun nm e => hn ⟨nm, e⟩)] at h
        simp at h

theorem dropLast_append_getLastD (p : List String) (hp : p ≠ []) :
    p.dropLast ++ [p.getLastD ""] = p := by
  have h1 : p.getLastD "" = p.getLast hp := by
    cases p with
    | nil => exact absurd rfl hp
    | cons a l => rfl
  rw [h1]
  exact List.dropLast_append_getLast hp

/-! ## Claims -/

/-- C1 (read-after-write): whenever `setValueAtPath` on a string-keyed root,
a non-empty segment list `p` and a value `v` returns no error, `Query.Execute`
with the parts `p` on the resulting root returns `v`, whatever the root held
at `p` before. -/
theorem set_then_get (root : Fields) (p : List String) (v : Value) (hp : p ≠ [])
    (hset : (setValueAtPath root p v).2 = none) :
    Query.Execute ⟨p⟩ (.smap (setValueAtPath root p v).1) = .ok v := by
  have hlen : ¬ p.length = 0 := by simpa using hp
  simp only [setValueAtPath, hlen, if_false] at hset ⊢
  have h := setLoop_read p v 0 p.dropLast root hset
  rw [dropLast_append_getLastD p hp] at h
  simpa [Query.Execute] using h

/-- C1 at `.config.port = 8080` on `{config: {port: "old"}, name: "x"}`. -/
theorem set_then_get_witness :
    Query.Execute ⟨["config", "port"]⟩
      (.smap (setValueAtPath [("config", .smap [("port", .str "old")]), ("name", .str "x")]
        ["config", "port"] (.int 8080)).1) = .ok (.int 8080) :=
  set_then_get [("config", .smap [("port", .str "old")]), ("name", .str "x")]
    ["config", "port"] (.int 8080) (by simp) (by rfl)

theorem setLoop_empty_chain (path : List String) (value : Value) (i : Nat)
    (rest : List String) :
    Value.smap (setLoop path value i rest []).1 = chain (rest ++ [path.getLastD ""]) value := by
  induction rest generalizing i with
  | nil => simp [setLoop_nil, mapAssign, chain]
  | cons key rest ih =>
    rw [setLoop_cons_absent _ _ _ _ _ _ (by simp [mapIndex])]
    rw [List.cons_append]
    simp only [mapAssign, chain, ih (i + 1)]

/-- C3 (auto-vivification): on the empty root mapping, `setValueAtPath` with
a non-empty segment list `[s1, ..., sn]` and a value `v` returns no error and
leaves the root equal to the chain `{s1: {s2: ... {sn: v}}}` of one-key
string-keyed mappings. -/
theorem set_on_empty_root (p : List String) (v : Value) (hp : p ≠ []) :
    (setValueAtPath [] p v).2 = none ∧
      Value.smap (setValueAtPath [] p v).1 = chain p v := by
  have hlen : ¬ p.length = 0 := by simpa using hp
  simp only [setValueAtPath, hlen, if_false]
  refine ⟨setLoop_empty_ok p v 0 p.dropLast, ?_⟩
  rw [setLoop_empty_chain, dropLast_append_getLastD p hp]

/-- C3 at `.database.credentials.username = "admin"` on `{}`. -/
theorem set_on_empty_root_witness :
    (setValueAtPath [] ["database", "credentials", "username"] (.str "admin")).2 = none ∧
      Value.smap (setValueAtPath [] ["database", "credentials", "username"] (.str "admin")).1
        = .smap [("database", .smap [("credentials", .smap [("username", .str "admin")])])] :=
  set_on_empty_root ["database", "credentials", "username"] (.str "admin") (by simp)

/-! ## The delete walk -/

theorem deleteLoop_nil_present (path : List String) (i : Nat) (current : Fields) (x : Value)
    (h : mapIndex current (path.getLastD "") = some x) :
    deleteLoop path i [] current = (mapDelete current (path.getLastD ""), none) := by
  simp only [deleteLoop, h]

theorem deleteLoop_nil_absent (path : List String) (i : Nat) (current : Fields)
    (h : mapIndex current (path.getLastD "") = none) :
    deleteLoop path i [] current
      = (current, some ("key not found: " ++ Join path ".")) := by
  simp only [deleteLoop, h]

theorem deleteLoop_cons_map (path : List String) (i : Nat) (key : String)
    (rest : List String) (current nextMap : Fields)
    (h : mapIndex current key = some (.smap nextMap)) :
    deleteLoop path i (key :: rest) current
      = (mapAssign current key (.smap (deleteLoop path (i + 1) rest nextMap).1),
          (deleteLoop path (i + 1) rest nextMap).2) := by
  simp only [deleteLoop, h]

theorem deleteLoop_cons_absent (path : List String) (i : Nat) (key : String)
    (rest : List String) (current : Fields) (h : mapIndex current key = none) :
    deleteLoop path i (key :: rest) current
      = (current, some ("path not found: " ++ Join (path.take (i + 1)) ".")) := by
  simp only [deleteLoop, h]

theorem deleteLoop_cons_stuck (path : List String) (i : Nat) (key : String)
    (rest : List String) (current : Fields) (next : Value)
    (h : mapIndex current key = some next) (hn : ∀ nm, next ≠ .smap nm) :
    deleteLoop path i (key :: rest) current
      = (current, some ("cannot navigate into " ++ typeName next ++ " at "
          ++ Join (path.take (i + 1)) ".")) := by
  cases next with
  | smap nm => exact absurd rfl (hn nm)
  | _ => simp only [deleteLoop, h]

/-- Deleting along a walk that a set has just completed succeeds, and the
final key is then missing from the mapping the walk ends in. -/
theorem deleteLoop_after_setLoop (path : List String) (value : Value) (i : Nat)
    (rest : List String) (current : Fields)
    (h : (setLoop path value i rest current).2 = none) :
    (deleteLoop path i rest (setLoop path value i rest current).1).2 = none ∧
      executeLoop (rest ++ [path.getLastD ""])
          (.smap (deleteLoop path i rest (setLoop path value i rest current).1).1)
        = .error ("key '" ++ path.getLastD "" ++ "' not found") := by
  induction rest generalizing i current with
  | nil =>
    rw [setLoop_nil]
    rw [deleteLoop_nil_present _ _ _ value (mapIndex_mapAssign_self _ _ _)]
    simp [executeLoop_smap_cons, mapIndex_mapDelete_self]
  | cons key rest ih =>
    cases hm : mapIndex current key with
    | none =>
      rw [setLoop_cons_absent _ _ _ _ _ _ hm] at h ⊢
      rw [deleteLoop_cons_map _ _ _ _ _ _ (mapIndex_mapAssign_self _ _ _)]
      simp only [List.cons_append, executeLoop_smap_cons, mapIndex_mapAssign_self]
      exact ih (i + 1) [] h
    | some next =>
      by_cases hn : ∃ nm, next = .smap nm
      · obtain ⟨nm, rfl⟩ := hn
        rw [setLoop_cons_map _ _ _ _ _ _ _ hm] at h ⊢
        rw [deleteLoop_cons_map _ _ _ _ _ _ (mapIndex_mapAssign_self _ _ _)]
        simp only [List.cons_append, executeLoop_smap_cons, mapIndex_mapAssign_self]
        exact ih (i + 1) nm h
      · rw [setLoop_cons_stuck _ _ _ _ _ _ _ hm (fun nm e => hn ⟨nm, e⟩)] at h
        simp at h

/-- C2 (delete after set): whenever `setValueAtPath` on a root mapping, a
non-empty segment list `p` and a value `v` returns no error,
`deleteValueAtPath` with the same `p` on the resulting root returns no error,
and `Query.Execute` with the parts `p` on the root it leaves fails with
`key '<last segment of p>' not found`. -/
theorem set_delete_then_get (root : Fields) (p : List String) (v : Value) (hp : p ≠ [])
    (hset : (setValueAtPath root p v).2 = none) :
    (deleteValueAtPath (setValueAtPath root p v).1 p).2 = none ∧
      Query.Execute ⟨p⟩ (.smap (deleteValueAtPath (setValueAtPath root p v).1 p).1)
        = .error ("key '" ++ p.getLast hp ++ "' not found") := by
  have hlen : ¬ p.length = 0 := by simpa using hp
  have hlast : p.getLast hp = p.getLastD "" := by
    cases p with
    | nil => exact absurd rfl hp
    | cons a l => rfl
  simp only [setValueAtPath, deleteValueAtPath, hlen, if_false] at hset ⊢
  have h := deleteLoop_after_setLoop p v 0 p.dropLast root hset
  rw [dropLast_append_getLastD p hp] at h
  rw [hlast]
  simpa [Query.Execute] using h

/-- C2 at `.config.port` on `{config: {host: "h"}}`. -/
theorem set_delete_then_get_witness :
    (deleteValueAtPath (setValueAtPath [("config", .smap [("host", .str "h")])]
        ["config", "port"] (.int 1)).1 ["config", "port"]).2 = none ∧
      Query.Execute ⟨["config", "port"]⟩
          (.smap (deleteValueAtPath (setValueAtPath [("config", .smap [("host", .str "h")])]
            ["config", "port"] (.int 1)).1 ["config", "port"]).1)
        = .error "key 'port' not found" :=
  set_delete_then_get [("config", .smap [("host", .str "h")])] ["config", "port"] (.int 1)
    (by simp) (by rfl)

/-! ## Error messages -/

/-- No not-navigable message of `Query.Execute` is a key-not-found message. -/
theorem nav_msg_ne_key_msg (kind s k : String) :
    "cannot navigate into " ++ kind ++ " at '" ++ s ++ "'" ≠ "key '" ++ k ++ "' not found" := by
  intro h
  have h2 := congrArg (fun x => x.data.head?) h
  simp [String.data_append] at h2

theorem array_msg_ne_key_msg (s k : String) :
    "cannot navigate into array at '" ++ s ++ "'" ≠ "key '" ++ k ++ "' not found" := by
  intro h
  have h2 := congrArg (fun x => x.data.head?) h
  simp [String.data_append] at h2

theorem Execute_eq_executeLoop_of_ok (q : Query) (t x : Value)
    (h : Query.Execute q t = .ok x) : executeLoop q.parts t = .ok x := by
  cases t <;> simp_all [Query.Execute]

theorem Execute_append (pre rest : List String) (t x : Value)
    (h : Query.Execute ⟨pre⟩ t = .ok x) :
    Query.Execute ⟨pre ++ rest⟩ t = executeLoop rest x := by
  have h1 := Execute_eq_executeLoop_of_ok ⟨pre⟩ t x h
  have h2 := executeLoop_append pre rest t x h1
  cases t with
  | nil => simp [Query.Execute] at h
  | _ => simpa [Query.Execute] using h2

/-- C4 (get reports the first missing key): if `Query.Execute` with the first
segments `pre` returns a mapping, string-keyed or generic-keyed, that has no
entry for the next segment `s`, then `Query.Execute` with `pre`, `s` and any
further segments returns the error `key '<s>' not found`. -/
theorem get_first_missing_key (t : Value) (pre : List String) (s : String)
    (rest : List String) (m : Value)
    (hpre : Query.Execute ⟨pre⟩ t = .ok m)
    (hmiss : (∃ f, m = .smap f ∧ mapIndex f s = none) ∨
      (∃ g, m = .gmap g ∧ gmapIndex g s = none)) :
    Query.Execute ⟨pre ++ s :: rest⟩ t = .error ("key '" ++ s ++ "' not found") := by
  rw [Execute_append pre (s :: rest) t m hpre]
  rcases hmiss with ⟨f, rfl, hf⟩ | ⟨g, rfl, hg⟩
  · rw [executeLoop_smap_cons, hf]
  · rw [executeLoop_gmap_cons, hg]

/-- C4 at `.nested.missing.more` on a generic-keyed mapping inside a
string-keyed one. -/
theorem get_first_missing_key_witness :
    Query.Execute ⟨["nested"] ++ "missing" :: ["more"]⟩
        (.smap [("nested", .gmap [(.str "subkey", .str "subvalue"), (.int 0, .bool true)])])
      = .error ("key '" ++ "missing" ++ "' not found") :=
  get_first_missing_key
    (.smap [("nested", .gmap [(.str "subkey", .str "subvalue"), (.int 0, .bool true)])])
    ["nested"] "missing" ["more"]
    (.gmap [(.str "subkey", .str "subvalue"), (.int 0, .bool true)]) (by rfl)
    (Or.inr ⟨[(.str "subkey", .str "subvalue"), (.int 0, .bool true)], rfl, by rfl⟩)

/-- C5 (arrays and scalars are not navigable): if `Query.Execute` with a
proper prefix `pre` of the segments returns a sequence or a scalar `x`, then
`Query.Execute` with all the segments `pre ++ s :: rest` fails with
`cannot navigate into array at '<s>'` when `x` is a sequence and with
`cannot navigate into <type of x> at '<s>'` when `x` is a scalar; it returns
no value and no key-not-found error. -/
theorem get_not_navigable (t : Value) (pre : List String) (s : String)
    (rest : List String) (x : Value)
    (hpre : Query.Execute ⟨pre⟩ t = .ok x) (hx : x.isSeqOrScalar = true) :
    ((∃ items, x = .arr items ∧
        Query.Execute ⟨pre ++ s :: rest⟩ t
          = .error ("cannot navigate into array at '" ++ s ++ "'")) ∨
      ((∀ items, x ≠ .arr items) ∧
        Query.Execute ⟨pre ++ s :: rest⟩ t
          = .error ("cannot navigate into " ++ typeName x ++ " at '" ++ s ++ "'"))) ∧
    (∀ v, Query.Execute ⟨pre ++ s :: rest⟩ t ≠ .ok v) ∧
    (∀ k, Query.Execute ⟨pre ++ s :: rest⟩ t ≠ .error ("key '" ++ k ++ "' not found")) := by
  rw [Execute_append pre (s :: rest) t x hpre]
  cases x with
  | arr items =>
    refine ⟨Or.inl ⟨items, rfl, by simp [executeLoop]⟩, by simp [executeLoop], ?_⟩
    intro k h
    simp only [executeLoop, Except.error.injEq] at h
    exact array_msg_ne_key_msg s k h
  | str a =>
    refine ⟨Or.inr ⟨by simp, by simp [executeLoop]⟩, by simp [executeLoop], ?_⟩
    intro k h
    simp only [executeLoop, Except.error.injEq] at h
    exact nav_msg_ne_key_msg _ s k h
  | int a =>
    refine ⟨Or.inr ⟨by simp, by simp [executeLoop]⟩, by simp [executeLoop], ?_⟩
    intro k h
    simp only [executeLoop, Except.error.injEq] at h
    exact nav_msg_ne_key_msg _ s k h
  | float a =>
    refine ⟨Or.inr ⟨by simp, by simp [executeLoop]⟩, by simp [executeLoop], ?_⟩
    intro k h
    simp only [executeLoop, Except.error.injEq] at h
    exact nav_msg_ne_key_msg _ s k h
  | bool a =>
    refine ⟨Or.inr ⟨by simp, by simp [executeLoop]⟩, by simp [executeLoop], ?_⟩
    intro k h
    simp only [executeLoop, Except.error.injEq] at h
    exact nav_msg_ne_key_msg _ s k h
  | nil => simp [Value.isSeqOrScalar] at hx
  | smap m => simp [Value.isSeqOrScalar] at hx
  | gmap m => simp [Value.isSeqOrScalar] at hx

/-- C5 at `.array.0` on `{array: ["item1", "item2"]}`. -/
theorem get_not_navigable_witness :
    ((∃ items, Value.arr [.str "item1", .str "item2"] = .arr items ∧
        Query.Execute ⟨["array"] ++ "0" :: []⟩
            (.smap [("array", .arr [.str "item1", .str "item2"])])
          = .error ("cannot navigate into array at '" ++ "0" ++ "'")) ∨
      ((∀ items, Value.arr [.str "item1", .str "item2"] ≠ .arr items) ∧
        Query.Execute ⟨["array"] ++ "0" :: []⟩
            (.smap [("array", .arr [.str "item1", .str "item2"])])
          = .error ("cannot navigate into "
              ++ typeName (.arr [.str "item1", .str "item2"]) ++ " at '" ++ "0" ++ "'"))) ∧
    (∀ v, Query.Execute ⟨["array"] ++ "0" :: []⟩
        (.smap [("array", .arr [.str "item1", .str "item2"])]) ≠ .ok v) ∧
    (∀ k, Query.Execute ⟨["array"] ++ "0" :: []⟩
        (.smap [("array", .arr [.str "item1", .str "item2"])])
          ≠ .error ("key '" ++ k ++ "' not found")) :=
  get_not_navigable (.smap [("array", .arr [.str "item1", .str "item2"])]) ["array"] "0" []
    (.arr [.str "item1", .str "item2"]) (by rfl) (by rfl)

/-! ## String-keyed trees -/

theorem stringKeyed_of_mapIndex (m : Fields) (k : String) (x : Value)
    (hm : (Value.smap m).stringKeyed = true) (h : mapIndex m k = some x) :
    x.stringKeyed = true := by
  induction m with
  | nil => simp [mapIndex] at h
  | cons e rest ih =>
    obtain ⟨k0, v0⟩ := e
    simp only [Value.stringKeyed, stringKeyedFields, Bool.and_eq_true] at hm
    by_cases hk : k0 = k
    · simp [mapIndex, hk] at h
      exact h ▸ hm.1
    · simp [mapIndex, hk] at h
      exact ih (by simpa [Value.stringKeyed] using hm.2) h

theorem stringKeyed_cases (x : Value) (h : x.stringKeyed = true) :
    (∃ nm, x = .smap nm) ∨ x.isSeqOrScalar = true := by
  cases x <;> simp_all [Value.stringKeyed, Value.isSeqOrScalar]

theorem ne_smap_of_isSeqOrScalar (x : Value) (h : x.isSeqOrScalar = true) (nm : Fields) :
    x ≠ .smap nm := by
  cases x <;> simp_all [Value.isSeqOrScalar]

theorem executeLoop_stuck (x : Value) (h : x.isSeqOrScalar = true) (s : String)
    (rest : List String) (y : Value) : executeLoop (s :: rest) x ≠ .ok y := by
  cases x <;> simp_all [Value.isSeqOrScalar, executeLoop]

/-- On a string-keyed tree, the write walk fails exactly when the read walk
along the segments still to pass reaches a sequence or a scalar, and the
message then names that value and the segments up to it. -/
theorem setLoop_error (path : List String) (value : Value) (i : Nat)
    (rest : List String) (current : Fields)
    (hc : (Value.smap current).stringKeyed = true) :
    ((setLoop path value i rest current).2 ≠ none ↔
      ∃ j x, j < rest.length ∧ executeLoop (rest.take (j + 1)) (.smap current) = .ok x ∧
        x.isSeqOrScalar = true) ∧
    (∀ j x, j < rest.length → executeLoop (rest.take (j + 1)) (.smap current) = .ok x →
      x.isSeqOrScalar = true →
      (setLoop path value i rest current).2
        = some ("cannot navigate into " ++ typeName x ++ " at "
            ++ Join (path.take (i + j + 1)) ".")) := by
  induction rest generalizing i current with
  | nil => simp [setLoop_nil]
  | cons key rest ih =>
    cases hm : mapIndex current key with
    | none =>
      rw [setLoop_cons_absent _ _ _ _ _ _ hm]
      simp [setLoop_empty_ok, executeLoop_smap_cons, hm]
    | some next =>
      have hnext := stringKeyed_of_mapIndex current key next hc hm
      rcases stringKeyed_cases next hnext with ⟨nm, rfl⟩ | hss
      · rw [setLoop_cons_map _ _ _ _ _ _ _ hm]
        obtain ⟨ih1, ih2⟩ := ih (i + 1) nm hnext
        constructor
        · rw [ih1]
          constructor
          · rintro ⟨j, x, hj, hx, hs⟩
            exact ⟨j + 1, x, by simpa using hj,
              by simpa [executeLoop_smap_cons, hm] using hx, hs⟩
          · rintro ⟨j, x, hj, hx, hs⟩
            cases j with
            | zero =>
              simp [executeLoop_smap_cons, hm, executeLoop] at hx
              subst hx
              simp [Value.isSeqOrScalar] at hs
            | succ j =>
              exact ⟨j, x, by simpa using hj,
                by simpa [executeLoop_smap_cons, hm] using hx, hs⟩
        · intro j x hj hx hs
          cases j with
          | zero =>
            simp [executeLoop_smap_cons, hm, executeLoop] at hx
            subst hx
            simp [Value.isSeqOrScalar] at hs
          | succ j =>
            have h := ih2 j x (by simpa using hj)
              (by simpa [executeLoop_smap_cons, hm] using hx) hs
            rw [h]
            have e : i + 1 + j + 1 = i + (j + 1) + 1 := by omega
            rw [e]
      · rw [setLoop_cons_stuck _ _ _ _ _ _ _ hm (ne_smap_of_isSeqOrScalar next hss)]
        constructor
        · constructor
          · intro _
            exact ⟨0, next, by simp, by simp [executeLoop_smap_cons, hm, executeLoop], hss⟩
          · intro _
            simp
        · intro j x hj hx hs
          cases j with
          | zero =>
            simp [executeLoop_smap_cons, hm, executeLoop] at hx
            subst hx
            rfl
          | succ j =>
            have hj2 : j < rest.length := by simpa using hj
            cases hr : rest with
            | nil => simp [hr] at hj2
            | cons r rs =>
              simp only [hr, List.take_succ_cons, executeLoop_smap_cons, hm] at hx
              exact absurd hx (executeLoop_stuck next hss _ _ x)

theorem take_dropLast (p : List String) (j : Nat) (hj : j + 1 < p.length) :
    p.dropLast.take (j + 1) = p.take (j + 1) := by
  rw [List.dropLast_eq_take, List.take_take]
  congr 1
  omega

/-- C6 (exact failure condition of set): on a root tree all of whose mappings
are string-keyed, `setValueAtPath` returns an error if and only if `p` is
empty or, for some non-final position `j` of `p`, reading the segments up to
and including position `j` reaches a sequence or a scalar.  The error is
`cannot set root value` for the empty `p` and
`cannot navigate into <type> at <segments up to there joined by .>`
otherwise. -/
theorem set_fails_iff (root : Fields) (p : List String) (v : Value)
    (hroot : (Value.smap root).stringKeyed = true) :
    ((setValueAtPath root p v).2 ≠ none ↔
      (p = [] ∨ ∃ j x, j + 1 < p.length ∧
        Query.Execute ⟨p.take (j + 1)⟩ (.smap root) = .ok x ∧ x.isSeqOrScalar = true)) ∧
    (p = [] → (setValueAtPath root p v).2 = some "cannot set root value") ∧
    (∀ j x, j + 1 < p.length → Query.Execute ⟨p.take (j + 1)⟩ (.smap root) = .ok x →
      x.isSeqOrScalar = true →
      (setValueAtPath root p v).2
        = some ("cannot navigate into " ++ typeName x ++ " at "
            ++ Join (p.take (j + 1)) ".")) := by
  by_cases hp : p = []
  · subst hp
    simp [setValueAtPath]
  · have hlen : ¬ p.length = 0 := by simpa using hp
    obtain ⟨h1, h2⟩ := setLoop_error p v 0 p.dropLast root hroot
    simp only [setValueAtPath, hlen, if_false, hp, false_or, false_implies, true_and]
    constructor
    · rw [h1]
      constructor
      · rintro ⟨j, x, hj, hx, hs⟩
        have hj2 : j + 1 < p.length := by
          rw [List.length_dropLast] at hj
          omega
        exact ⟨j, x, hj2, by simpa [Query.Execute, take_dropLast p j hj2] using hx, hs⟩
      · rintro ⟨j, x, hj, hx, hs⟩
        refine ⟨j, x, ?_, ?_, hs⟩
        · rw [List.length_dropLast]
          omega
        · simpa [Query.Execute, take_dropLast p j hj] using hx
    · intro j x hj hx hs
      have h := h2 j x (by rw [List.length_dropLast]; omega)
        (by simpa [Query.Execute, take_dropLast p j hj] using hx) hs
      simpa using h

/-- C6 at `.name.first = 1` on `{name: "x", tags: ["a"]}`: the key `name`
holds a string. -/
theorem set_fails_iff_witness :
    (Value.smap [("name", .str "x"), ("tags", .arr [.str "a"])]).stringKeyed = true ∧
      (setValueAtPath [("name", .str "x"), ("tags", .arr [.str "a"])]
          ["name", "first"] (.int 1)).2 ≠ none ∧
      (setValueAtPath [("name", .str "x"), ("tags", .arr [.str "a"])]
          ["name", "first"] (.int 1)).2 = some "cannot navigate into string at name" :=
  ⟨by rfl,
    (set_fails_iff [("name", .str "x"), ("tags", .arr [.str "a"])] ["name", "first"] (.int 1)
      (by rfl)).1.mpr (Or.inr ⟨0, .str "x", by decide, by rfl, by rfl⟩),
    (set_fails_iff [("name", .str "x"), ("tags", .arr [.str "a"])] ["name", "first"] (.int 1)
      (by rfl)).2.2 0 (.str "x") (by decide) (by rfl) (by rfl)⟩

/-! ## Effect of the delete walk -/

/-- A delete walk that meets an absent key before the end of its segments
fails with `path not found` and leaves the mapping as it was. -/
theorem deleteLoop_absent (path : List String) (i : Nat) (pre : List String) (k : String)
    (rest : List String) (current c : Fields)
    (hwalk : descend current pre = some c) (habs : mapIndex c k = none) :
    deleteLoop path i (pre ++ k :: rest) current
      = (current, some ("path not found: " ++ Join (path.take (i + pre.length + 1)) ".")) := by
  induction pre generalizing i current with
  | nil =>
    simp only [descend, Option.some.injEq] at hwalk
    subst hwalk
    simpa using deleteLoop_cons_absent path i k rest current habs
  | cons key pre ih =>
    cases hm : mapIndex current key with
    | none => simp [descend, hm] at hwalk
    | some next =>
      cases next with
      | smap nm =>
        simp only [descend, hm] at hwalk
        rw [List.cons_append, deleteLoop_cons_map _ _ _ _ _ _ hm, ih (i + 1) nm hwalk]
        have e : i + 1 + pre.length + 1 = i + (key :: pre).length + 1 := by
          simp only [List.length_cons]
          omega
        rw [e, mapAssign_same current key (.smap nm) hm]
      | _ => simp [descend, hm] at hwalk

/-- C7 (delete never auto-vivifies): when the segments `pre` are followed by
delete through string-keyed mappings to a mapping in which the next segment
`k` is absent, and `k` is not the final segment (`rest` is non-empty),
`deleteValueAtPath` fails with `path not found: ` followed by the segments up
to and including `k` joined by `.`, and the root is left as it was. -/
theorem delete_absent_intermediate (root : Fields) (pre : List String) (k : String)
    (rest : List String) (c : Fields) (hrest : rest ≠ [])
    (hwalk : descend root pre = some c) (habs : mapIndex c k = none) :
    deleteValueAtPath root (pre ++ k :: rest)
      = (root, some ("path not found: " ++ Join (pre ++ [k]) ".")) := by
  have hlen : ¬ (pre ++ k :: rest).length = 0 := by simp
  have hdrop : (pre ++ k :: rest).dropLast = pre ++ k :: rest.dropLast := by
    rw [List.dropLast_append_of_ne_nil _ (by simp)]
    cases rest with
    | nil => exact absurd rfl hrest
    | cons r rs => rfl
  have htake : (pre ++ k :: rest).take (0 + pre.length + 1) = pre ++ [k] := by
    rw [Nat.zero_add, List.take_append_eq_append_take]
    simp
  simp only [deleteValueAtPath, hlen, if_false, hdrop]
  rw [deleteLoop_absent _ 0 pre k rest.dropLast root c hwalk habs, htake]

/-- C7 at `del(.a.b)` on `{}`. -/
theorem delete_absent_intermediate_witness :
    deleteValueAtPath [] ([] ++ "a" :: ["b"]) = ([], some ("path not found: " ++ "a")) :=
  delete_absent_intermediate [] [] "a" ["b"] [] (by simp) (by rfl) (by rfl)

/-- A delete walk whose segments resolve through string-keyed mappings to a
mapping that holds the final key succeeds; afterwards the same segments
resolve to that mapping without the final key, and every read that leaves the
deleted path gives what it gave before. -/
theorem deleteLoop_present (path : List String) (i : Nat) (rest : List String)
    (current c : Fields) (x : Value)
    (hwalk : descend current rest = some c)
    (hx : mapIndex c (path.getLastD "") = some x) :
    (deleteLoop path i rest current).2 = none ∧
    descend (deleteLoop path i rest current).1 rest = some (mapDelete c (path.getLastD "")) ∧
    (∀ q, ¬ (rest ++ [path.getLastD ""]) <+: q → ¬ q <+: (rest ++ [path.getLastD ""]) →
      executeLoop q (.smap (deleteLoop path i rest current).1)
        = executeLoop q (.smap current)) := by
  induction rest generalizing i current with
  | nil =>
    simp only [descend, Option.some.injEq] at hwalk
    subst hwalk
    rw [deleteLoop_nil_present _ _ _ x hx]
    refine ⟨rfl, rfl, ?_⟩
    intro q h1 h2
    cases q with
    | nil => exact absurd List.nil_prefix h2
    | cons s q =>
      have hs : path.getLastD "" ≠ s := by
        intro e
        apply h1
        rw [List.nil_append, e]
        exact List.prefix_iff_eq_append.mpr rfl
      rw [executeLoop_smap_cons, executeLoop_smap_cons, mapIndex_mapDelete_ne _ _ _ hs]
  | cons key rest ih =>
    cases hm : mapIndex current key with
    | none => simp [descend, hm] at hwalk
    | some next =>
      cases next with
      | smap nm =>
        simp only [descend, hm] at hwalk
        obtain ⟨ih1, ih2, ih3⟩ := ih (i + 1) nm hwalk
        rw [deleteLoop_cons_map _ _ _ _ _ _ hm]
        refine ⟨ih1, ?_, ?_⟩
        · simp only [descend, mapIndex_mapAssign_self]
          exact ih2
        · intro q h1 h2
          cases q with
          | nil => exact absurd List.nil_prefix h2
          | cons s q =>
            rw [executeLoop_smap_cons, executeLoop_smap_cons]
            by_cases hs : key = s
            · subst hs
              rw [mapIndex_mapAssign_self, hm]
              apply ih3 q
              · intro h
                apply h1
                rw [List.cons_append]
                exact (List.cons_prefix_cons).mpr ⟨rfl, h⟩
              · intro h
                apply h2
                rw [List.cons_append]
                exact (List.cons_prefix_cons).mpr ⟨rfl, h⟩
            · rw [mapIndex_mapAssign_ne _ _ _ _ hs]
      | _ => simp [descend, hm] at hwalk

/-- A delete walk whose segments resolve through string-keyed mappings to a
mapping that lacks the final key fails and changes nothing. -/
theorem deleteLoop_final_absent (path : List String) (i : Nat) (rest : List String)
    (current c : Fields) (hwalk : descend current rest = some c)
    (hx : mapIndex c (path.getLastD "") = none) :
    deleteLoop path i rest current
      = (current, some ("key not found: " ++ Join path ".")) := by
  induction rest generalizing i current with
  | nil =>
    simp only [descend, Option.some.injEq] at hwalk
    subst hwalk
    exact deleteLoop_nil_absent _ _ _ hx
  | cons key rest ih =>
    cases hm : mapIndex current key with
    | none => simp [descend, hm] at hwalk
    | some next =>
      cases next with
      | smap nm =>
        simp only [descend, hm] at hwalk
        rw [deleteLoop_cons_map _ _ _ _ _ _ hm, ih (i + 1) nm hwalk,
          mapAssign_same current key (.smap nm) hm]
      | _ => simp [descend, hm] at hwalk

/-- C8 (effect of a successful delete): let the segments before the last of
a non-empty `p` resolve from the root through string-keyed mappings to the
mapping `c`.  If `c` holds the final key, `deleteValueAtPath` returns no
error; afterwards the same segments resolve to `c` without the final key
(that key is gone from it and every other key of it reads as before), and
every read whose segments leave `p` (neither a prefix of `p` nor an extension
of it) returns what it returned on the original root.  If `c` lacks the final
key, the call fails with `key not found: <p joined by .>` and the root is
unchanged. -/
theorem delete_effect (root : Fields) (p : List String) (hp : p ≠ []) (c : Fields)
    (hwalk : descend root p.dropLast = some c) :
    (∀ x, mapIndex c (p.getLast hp) = some x →
      (deleteValueAtPath root p).2 = none ∧
      descend (deleteValueAtPath root p).1 p.dropLast
        = some (mapDelete c (p.getLast hp)) ∧
      mapIndex (mapDelete c (p.getLast hp)) (p.getLast hp) = none ∧
      (∀ k, k ≠ p.getLast hp → mapIndex (mapDelete c (p.getLast hp)) k = mapIndex c k) ∧
      (∀ q, ¬ p <+: q → ¬ q <+: p →
        Query.Execute ⟨q⟩ (.smap (deleteValueAtPath root p).1)
          = Query.Execute ⟨q⟩ (.smap root))) ∧
    (mapIndex c (p.getLast hp) = none →
      deleteValueAtPath root p = (root, some ("key not found: " ++ Join p "."))) := by
  have hlen : ¬ p.length = 0 := by simpa using hp
  have hlast : p.getLast hp = p.getLastD "" := by
    cases p with
    | nil => exact absurd rfl hp
    | cons a l => rfl
  rw [hlast]
  simp only [deleteValueAtPath, hlen, if_false]
  constructor
  · intro x hx
    obtain ⟨h1, h2, h3⟩ := deleteLoop_present p 0 p.dropLast root c x hwalk hx
    rw [dropLast_append_getLastD p hp] at h3
    refine ⟨h1, h2, mapIndex_mapDelete_self _ _, ?_, ?_⟩
    · intro k hk
      exact mapIndex_mapDelete_ne _ _ _ (Ne.symm hk)
    · intro q hq1 hq2
      simpa [Query.Execute] using h3 q hq1 hq2
  · intro hx
    exact deleteLoop_final_absent p 0 p.dropLast root c hwalk hx

/-- C8 at `del(.name)` on `{name: "John", age: 30}`: the root becomes
`{age: 30}`, and `.age` still reads 30. -/
theorem delete_effect_witness :
    descend [("name", .str "John"), ("age", .int 30)] ["name"].dropLast
        = some [("name", .str "John"), ("age", .int 30)] ∧
      (deleteValueAtPath [("name", .str "John"), ("age", .int 30)] ["name"]).2 = none ∧
      descend (deleteValueAtPath [("name", .str "John"), ("age", .int 30)] ["name"]).1
          ["name"].dropLast = some [("age", .int 30)] ∧
      Query.Execute ⟨["age"]⟩
          (.smap (deleteValueAtPath [("name", .str "John"), ("age", .int 30)] ["name"]).1)
        = .ok (.int 30) :=
  ⟨by rfl,
    ((delete_effect [("name", .str "John"), ("age", .int 30)] ["name"] (by simp)
      [("name", .str "John"), ("age", .int 30)] (by rfl)).1 (.str "John") (by rfl)).1,
    ((delete_effect [("name", .str "John"), ("age", .int 30)] ["name"] (by simp)
      [("name", .str "John"), ("age", .int 30)] (by rfl)).1 (.str "John") (by rfl)).2.1,
    ((delete_effect [("name", .str "John"), ("age", .int 30)] ["name"] (by simp)
      [("name", .str "John"), ("age", .int 30)] (by rfl)).1 (.str "John")
        (by rfl)).2.2.2.2 ["age"] (by decide) (by decide)⟩

/-! ## Path strings -/

theorem splitChars_ne_nil (sep : Char) (cs : List Char) : splitChars sep cs ≠ [] := by
  cases cs with
  | nil => simp [splitChars]
  | cons c cs =>
    by_cases h : c = sep
    · simp [splitChars, h]
    · simp only [splitChars, h, if_false]
      split <;> simp

theorem splitChars_no_sep (sep : Char) (cs : List Char) (h : sep ∉ cs) :
    splitChars sep cs = [cs] := by
  induction cs with
  | nil => simp [splitChars]
  | cons c cs ih =>
    simp only [List.mem_cons, not_or] at h
    have hc : ¬ c = sep := fun e => h.1 e.symm
    simp [splitChars, hc, ih h.2]

theorem splitChars_append_sep (sep : Char) (a b : List Char) (h : sep ∉ a) :
    splitChars sep (a ++ sep :: b) = a :: splitChars sep b := by
  induction a with
  | nil => simp [splitChars]
  | cons c a ih =>
    simp only [List.mem_cons, not_or] at h
    have hc : ¬ c = sep := fun e => h.1 e.symm
    simp [splitChars, hc, ih h.2]

theorem splitChars_no_sep_mem (sep : Char) (cs : List Char) :
    ∀ l ∈ splitChars sep cs, sep ∉ l := by
  induction cs with
  | nil => simp [splitChars]
  | cons c cs ih =>
    by_cases hc : c = sep
    · simp only [splitChars, hc, if_true, List.mem_cons]
      rintro l (rfl | hl)
      · simp
      · exact ih l hl
    · simp only [splitChars, hc, if_false]
      cases hs : splitChars sep cs with
      | nil => exact absurd hs (splitChars_ne_nil sep cs)
      | cons h t =>
        rw [hs] at ih
        simp only [List.mem_cons]
        rintro l (rfl | hl)
        · have := ih h (by simp)
          simp only [List.mem_cons, not_or]
          exact ⟨fun e => hc e.symm, this⟩
        · exact ih l (by simp [hl])

theorem splitChars_length (sep : Char) (cs : List Char) :
    (splitChars sep cs).length = 1 + cs.count sep := by
  induction cs with
  | nil => simp [splitChars]
  | cons c cs ih =>
    by_cases hc : c = sep
    · subst hc
      simp [splitChars, ih]
      omega
    · simp only [splitChars, hc, if_false]
      have hc2 : ¬ (c == sep) = true := by simpa using hc
      cases hs : splitChars sep cs with
      | nil => exact absurd hs (splitChars_ne_nil sep cs)
      | cons h t =>
        rw [hs] at ih
        simp only [List.length_cons] at ih ⊢
        rw [List.count_cons, if_neg hc2]
        omega

theorem Join_cons (e : String) (rest : List String) (sep : String) (h : rest ≠ []) :
    Join (e :: rest) sep = e ++ sep ++ Join rest sep := by
  cases rest with
  | nil => exact absurd rfl h
  | cons r rs => simp only [Join]

/-- Joining what a split produced gives back the string that was split. -/
theorem Join_splitChars (cs : List Char) :
    (Join ((splitChars '.' cs).map String.mk) ".").data = cs := by
  induction cs with
  | nil => simp [splitChars, Join]
  | cons c cs ih =>
    by_cases hc : c = '.'
    · subst hc
      simp only [splitChars, if_true, List.map_cons]
      rw [Join_cons _ _ _ (by simpa using splitChars_ne_nil '.' cs)]
      simp [String.data_append, ih]
    · simp only [splitChars, hc, if_false]
      cases hs : splitChars '.' cs with
      | nil => exact absurd hs (splitChars_ne_nil '.' cs)
      | cons h t =>
        rw [hs] at ih
        cases t with
        | nil =>
          simp only [List.map_cons, List.map_nil, Join] at ih ⊢
          simp [ih]
        | cons t1 ts =>
          simp only [List.map_cons] at ih ⊢
          rw [Join_cons _ _ _ (by simp)] at ih ⊢
          simp only [String.data_append] at ih ⊢
          simp [← ih]

theorem Join_Split (s : String) : Join (Split s) "." = s := by
  apply String.ext
  exact Join_splitChars s.data

/-- Splitting the join of dot-free segments gives back the segments. -/
theorem Split_Join (ls : List String) (hne : ls ≠ [])
    (hdot : ∀ l ∈ ls, '.' ∉ l.data) : Split (Join ls ".") = ls := by
  induction ls with
  | nil => exact absurd rfl hne
  | cons e rest ih =>
    cases rest with
    | nil =>
      simp only [Join, Split]
      rw [splitChars_no_sep _ _ (hdot e (by simp))]
      rfl
    | cons r rs =>
      rw [Join_cons _ _ _ (by simp)]
      have ih2 := ih (by simp) (fun l hl => hdot l (by simp [hl]))
      simp only [Split] at ih2 ⊢
      have hd : (e ++ "." ++ Join (r :: rs) ".").data
          = e.data ++ '.' :: (Join (r :: rs) ".").data := by
        simp [String.data_append]
      rw [hd, splitChars_append_sep _ _ _ (hdot e (by simp)), List.map_cons, ih2]

theorem TrimPrefix_dot_append (r : String) : TrimPrefix ("." ++ r) = r := by
  have hd : ("." ++ r).data = '.' :: r.data := by simp [String.data_append]
  simp only [TrimPrefix, hd, if_true]

theorem TrimPrefix_no_dot (s : String) (h : ¬ s.data.head? = some '.') :
    TrimPrefix s = s := by
  unfold TrimPrefix
  cases hd : s.data with
  | nil => rfl
  | cons c rest =>
    have hc : ¬ c = '.' := by
      intro e
      apply h
      simp [hd, e]
    simp [hc]

theorem New_of_remainder (P r : String) (hP : P ≠ "") (hr : TrimPrefix P = r)
    (hr2 : r ≠ "") : New P = .ok ⟨Split r⟩ := by
  simp [New, hP, hr, hr2]

/-- C9 (reference definition of path parsing): `New P` fails, with
`query path cannot be empty`, exactly when `P` is the empty string;
`New "."` has zero segments; for every other `P`, with `r` what is left of `P`
after removing one leading `.` when there is one, `New P` succeeds and its
segments are the substrings of `r` between its dots, in order, empty ones
kept: joined by `.` they give `r`, none of them contains a dot, there is one
more of them than there are dots in `r`, and they are the only non-empty list
of dot-free strings whose join is `r`. -/
theorem New_reference (P : String) :
    (New P = .error "query path cannot be empty" ↔ P = "") ∧
    ((∃ e, New P = .error e) ↔ P = "") ∧
    New "." = .ok ⟨[]⟩ ∧
    (∀ r, P ≠ "" → P ≠ "." → (P = "." ++ r ∨ (¬ P.data.head? = some '.' ∧ r = P)) →
      ∃ q, New P = .ok q ∧
        Join q.Parts "." = r ∧
        (∀ s ∈ q.Parts, '.' ∉ s.data) ∧
        q.Parts.length = 1 + r.data.count '.' ∧
        (∀ ls, ls ≠ [] → (∀ l ∈ ls, '.' ∉ l.data) → Join ls "." = r → ls = q.Parts)) := by
  refine ⟨?_, ?_, rfl, ?_⟩
  · by_cases hP : P = ""
    · simp [New, hP]
    · by_cases h2 : TrimPrefix P = "" <;> simp [New, hP, h2]
  · by_cases hP : P = ""
    · simp [New, hP]
    · by_cases h2 : TrimPrefix P = "" <;> simp [New, hP, h2]
  · intro r hP hdot hr
    have htrim : TrimPrefix P = r := by
      rcases hr with h | ⟨h, rfl⟩
      · rw [h]
        exact TrimPrefix_dot_append r
      · exact TrimPrefix_no_dot r h
    have hr2 : r ≠ "" := by
      rcases hr with h | ⟨_, rfl⟩
      · intro e
        apply hdot
        rw [h, e]
        rfl
      · exact hP
    refine ⟨⟨Split r⟩, New_of_remainder P r hP htrim hr2, Join_Split r, ?_, ?_, ?_⟩
    · intro s hs
      simp only [Query.Parts, Split, List.mem_map] at hs
      obtain ⟨l, hl, rfl⟩ := hs
      exact splitChars_no_sep_mem '.' r.data l hl
    · simp [Query.Parts, Split, splitChars_length]
    · intro ls hne hls hj
      rw [← hj]
      exact (Split_Join ls hne hls).symm

/-- C9 at `..key` and `key.subkey`. -/
theorem New_reference_witness :
    New "..key" = .ok ⟨["", "key"]⟩ ∧ New "key.subkey" = .ok ⟨["key", "subkey"]⟩ := by
  constructor
  · obtain ⟨q, hq, -, -, -, hu⟩ :=
      (New_reference "..key").2.2.2 ".key" (by decide) (by decide) (Or.inl (by decide))
    have h := hu ["", "key"] (by simp) (by decide) (by decide)
    rw [hq, h]
    rfl
  · obtain ⟨q, hq, -, -, -, hu⟩ :=
      (New_reference "key.subkey").2.2.2 "key.subkey" (by decide) (by decide)
        (Or.inr ⟨by decide, rfl⟩)
    have h := hu ["key", "subkey"] (by simp) (by decide) (by decide)
    rw [hq, h]
    rfl

/-- C10 (parse/render round trip): for every non-empty path string `P`,
`New P` succeeds, `New` of its rendering `New(P).String()` succeeds, and the
two have the same parts. -/
theorem parse_render_roundtrip (P : String) (hP : P ≠ "") :
    ∃ q q2, New P = .ok q ∧ New q.String = .ok q2 ∧ q2.Parts = q.Parts := by
  by_cases h2 : TrimPrefix P = ""
  · refine ⟨⟨[]⟩, ⟨[]⟩, by simp [New, hP, h2], rfl, rfl⟩
  · refine ⟨⟨Split (TrimPrefix P)⟩, ⟨Split (TrimPrefix P)⟩,
      New_of_remainder P _ hP rfl h2, ?_, rfl⟩
    have hlen : ¬ (Split (TrimPrefix P)).length = 0 := by
      simpa [Split] using splitChars_ne_nil '.' (TrimPrefix P).data
    simp only [Query.String, hlen, if_false, Join_Split]
    refine New_of_remainder _ _ ?_ (TrimPrefix_dot_append _) h2
    intro e
    have := congrArg String.data e
    simp [String.data_append] at this

/-- C10 at `..`, `..key` and `a.`. -/
theorem parse_render_roundtrip_witness :
    (∃ q q2, New ".." = .ok q ∧ New q.String = .ok q2 ∧ q2.Parts = q.Parts) ∧
    (∃ q q2, New "..key" = .ok q ∧ New q.String = .ok q2 ∧ q2.Parts = q.Parts) ∧
    (∃ q q2, New "a." = .ok q ∧ New q.String = .ok q2 ∧ q2.Parts = q.Parts) :=
  ⟨parse_render_roundtrip ".." (by decide), parse_render_roundtrip "..key" (by decide),
    parse_render_roundtrip "a." (by decide)⟩

/-! ## Rendering and the root query -/

/-- C11 (canonical rendering): for every non-empty path string `P`, `New P`
succeeds and the `String()` of the result is `P` itself when `P` begins with
`.`, and `.` followed by `P` otherwise. -/
theorem render_canonical (P : String) (hP : P ≠ "") :
    ∃ q, New P = .ok q ∧
      q.String = if P.data.head? = some '.' then P else "." ++ P := by
  by_cases hd : P.data.head? = some '.'
  · rw [if_pos hd]
    have hP2 : P = "." ++ String.mk P.data.tail := by
      apply String.ext
      cases h : P.data with
      | nil => simp [h] at hd
      | cons c rest =>
        simp only [h, List.head?_cons, Option.some.injEq] at hd
        simp [String.data_append, hd]
    have htrim : TrimPrefix P = String.mk P.data.tail := by
      rw [hP2]
      exact TrimPrefix_dot_append _
    by_cases h2 : String.mk P.data.tail = ""
    · refine ⟨⟨[]⟩, by simp [New, hP, htrim, h2], ?_⟩
      rw [hP2, h2]
      rfl
    · refine ⟨⟨Split (String.mk P.data.tail)⟩, New_of_remainder P _ hP htrim h2, ?_⟩
      have hlen : ¬ (Split (String.mk P.data.tail)).length = 0 := by
        simpa [Split] using splitChars_ne_nil '.' P.data.tail
      simp only [Query.String, hlen, if_false, Join_Split]
      exact hP2.symm
  · rw [if_neg hd]
    refine ⟨⟨Split P⟩, New_of_remainder P P hP (TrimPrefix_no_dot P hd) hP, ?_⟩
    have hlen : ¬ (Split P).length = 0 := by
      simpa [Split] using splitChars_ne_nil '.' P.data
    simp only [Query.String, hlen, if_false, Join_Split]

/-- C11 at `key.subkey`, `.` and `..key`. -/
theorem render_canonical_witness :
    (∃ q, New "key.subkey" = .ok q ∧ q.String = ".key.subkey") ∧
    (∃ q, New "." = .ok q ∧ q.String = ".") ∧
    (∃ q, New "..key" = .ok q ∧ q.String = "..key") :=
  ⟨render_canonical "key.subkey" (by decide), render_canonical "." (by decide),
    render_canonical "..key" (by decide)⟩

/-- C13 (root query): for every root value other than nil, the path parsed
from `.` has zero segments and `Query.Execute` with it returns the root value
itself. -/
theorem root_query (t : Value) (ht : t ≠ .nil) :
    ∃ q, New "." = .ok q ∧ q.Parts = [] ∧ q.Execute t = .ok t := by
  refine ⟨⟨[]⟩, rfl, rfl, ?_⟩
  cases t <;> simp_all [Query.Execute, executeLoop]

/-- C13 at the root `"just a string"`. -/
theorem root_query_witness :
    ∃ q, New "." = .ok q ∧ q.Parts = [] ∧
      q.Execute (.str "just a string") = .ok (.str "just a string") :=
  root_query (.str "just a string") (by simp)

/-! ## The two representations of a mapping -/

theorem gmapIndex_toGenericFields (m : Fields) (k : String) :
    gmapIndex (toGenericFields m) k = (mapIndex m k).map Value.toGeneric := by
  induction m with
  | nil => simp [toGenericFields, gmapIndex, mapIndex]
  | cons e rest ih =>
    obtain ⟨k0, v0⟩ := e
    by_cases h : k0 = k
    · simp [toGenericFields, gmapIndex, mapIndex, h]
    · simp [toGenericFields, gmapIndex, mapIndex, h, ih]

theorem gmapIndex_toGenericGFields (m : GFields) (k : String) :
    gmapIndex (toGenericGFields m) k = (gmapIndex m k).map Value.toGeneric := by
  induction m with
  | nil => simp [toGenericGFields, gmapIndex]
  | cons e rest ih =>
    obtain ⟨k0, v0⟩ := e
    by_cases h : k0 = GKey.str k
    · simp [toGenericGFields, gmapIndex, h]
    · simp [toGenericGFields, gmapIndex, h, ih]

/-- Reading the generic form of a tree gives the generic form of what reading
the tree gives, and the same error. -/
theorem executeLoop_toGeneric (p : List String) (t : Value) :
    executeLoop p t.toGeneric = (executeLoop p t).map Value.toGeneric := by
  induction p generalizing t with
  | nil => simp [executeLoop, Except.map]
  | cons part rest ih =>
    cases t with
    | smap m =>
      simp only [Value.toGeneric, executeLoop_smap_cons, executeLoop_gmap_cons,
        gmapIndex_toGenericFields]
      cases hm : mapIndex m part with
      | none => simp [Except.map]
      | some next => simpa using ih next
    | gmap m =>
      simp only [Value.toGeneric, executeLoop_gmap_cons, gmapIndex_toGenericGFields]
      cases hm : gmapIndex m part with
      | none => simp [Except.map]
      | some next => simpa using ih next
    | nil => simp [Value.toGeneric, executeLoop, Except.map, typeName]
    | str _ => simp [Value.toGeneric, executeLoop, Except.map, typeName]
    | int _ => simp [Value.toGeneric, executeLoop, Except.map, typeName]
    | float _ => simp [Value.toGeneric, executeLoop, Except.map, typeName]
    | bool _ => simp [Value.toGeneric, executeLoop, Except.map, typeName]
    | arr _ => simp [Value.toGeneric, executeLoop, Except.map]

theorem Execute_toGeneric (q : Query) (t : Value) :
    q.Execute t.toGeneric = (q.Execute t).map Value.toGeneric := by
  cases t with
  | nil => simp [Value.toGeneric, Query.Execute, Except.map]
  | smap m => simpa [Query.Execute, Value.toGeneric] using executeLoop_toGeneric q.parts (.smap m)
  | gmap m => simpa [Query.Execute, Value.toGeneric] using executeLoop_toGeneric q.parts (.gmap m)
  | arr m => simpa [Query.Execute, Value.toGeneric] using executeLoop_toGeneric q.parts (.arr m)
  | str a => simpa [Query.Execute, Value.toGeneric] using executeLoop_toGeneric q.parts (.str a)
  | int a => simpa [Query.Execute, Value.toGeneric] using executeLoop_toGeneric q.parts (.int a)
  | float a =>
    simpa [Query.Execute, Value.toGeneric] using executeLoop_toGeneric q.parts (.float a)
  | bool a => simpa [Query.Execute, Value.toGeneric] using executeLoop_toGeneric q.parts (.bool a)

/-- C12 (reads treat both mapping representations uniformly): if `t` and
`t2` differ only in the representation, string-keyed or generic-keyed, of
some of their mappings (they have the same generic form), then
`Query.Execute` with the same segments either fails on both with the same
error message or succeeds on both with values that again differ only in the
representation of their mappings. -/
theorem reads_uniform (t t2 : Value) (p : List String)
    (h : t.toGeneric = t2.toGeneric) :
    (∃ e, Query.Execute ⟨p⟩ t = .error e ∧ Query.Execute ⟨p⟩ t2 = .error e) ∨
    (∃ v v2, Query.Execute ⟨p⟩ t = .ok v ∧ Query.Execute ⟨p⟩ t2 = .ok v2 ∧
      v.toGeneric = v2.toGeneric) := by
  have h1 := Execute_toGeneric ⟨p⟩ t
  have h2 := Execute_toGeneric ⟨p⟩ t2
  rw [h, h2] at h1
  cases hx : Query.Execute ⟨p⟩ t with
  | error e =>
    cases hy : Query.Execute ⟨p⟩ t2 with
    | error e2 =>
      rw [hx, hy] at h1
      simp only [Except.map, Except.error.injEq] at h1
      exact Or.inl ⟨e, rfl, by rw [h1]⟩
    | ok v2 =>
      rw [hx, hy] at h1
      simp [Except.map] at h1
  | ok v =>
    cases hy : Query.Execute ⟨p⟩ t2 with
    | error e2 =>
      rw [hx, hy] at h1
      simp [Except.map] at h1
    | ok v2 =>
      rw [hx, hy] at h1
      simp only [Except.map, Except.ok.injEq] at h1
      exact Or.inr ⟨v, v2, rfl, rfl, h1.symm⟩

/-- C12 at `.nested` and at `.nested.missing` on `{nested: {subkey: "v"}}`,
string-keyed on one side and generic-keyed on the other. -/
theorem reads_uniform_witness :
    ((∃ e, Query.Execute ⟨["nested"]⟩ (.smap [("nested", .smap [("subkey", .str "v")])])
          = .error e ∧
        Query.Execute ⟨["nested"]⟩
          (.gmap [(.str "nested", .gmap [(.str "subkey", .str "v")])]) = .error e) ∨
      (∃ v v2, Query.Execute ⟨["nested"]⟩ (.smap [("nested", .smap [("subkey", .str "v")])])
          = .ok v ∧
        Query.Execute ⟨["nested"]⟩
          (.gmap [(.str "nested", .gmap [(.str "subkey", .str "v")])]) = .ok v2 ∧
        v.toGeneric = v2.toGeneric)) ∧
    ((∃ e, Query.Execute ⟨["nested", "missing"]⟩
          (.smap [("nested", .smap [("subkey", .str "v")])]) = .error e ∧
        Query.Execute ⟨["nested", "missing"]⟩
          (.smap [("nested", .gmap [(.str "subkey", .str "v")])]) = .error e) ∨
      (∃ v v2, Query.Execute ⟨["nested", "missing"]⟩
          (.smap [("nested", .smap [("subkey", .str "v")])]) = .ok v ∧
        Query.Execute ⟨["nested", "missing"]⟩
          (.smap [("nested", .gmap [(.str "subkey", .str "v")])]) = .ok v2 ∧
        v.toGeneric = v2.toGeneric)) :=
  ⟨reads_uniform (.smap [("nested", .smap [("subkey", .str "v")])])
      (.gmap [(.str "nested", .gmap [(.str "subkey", .str "v")])]) ["nested"] (by rfl),
    reads_uniform (.smap [("nested", .smap [("subkey", .str "v")])])
      (.smap [("nested", .gmap [(.str "subkey", .str "v")])]) ["nested", "missing"] (by rfl)⟩

/-! ## Set expressions -/

theorem cutAt_append (sep : Char) (a b : List Char) (h : sep ∉ a) :
    cutAt sep (a ++ sep :: b) = some (a, b) := by
  induction a with
  | nil => simp [cutAt]
  | cons c a ih =>
    simp only [List.mem_cons, not_or] at h
    have hc : ¬ c = sep := fun e => h.1 e.symm
    simp [cutAt, hc, ih h.2]

theorem cutAt_none (sep : Char) (a : List Char) (h : sep ∉ a) : cutAt sep a = none := by
  induction a with
  | nil => simp [cutAt]
  | cons c a ih =>
    simp only [List.mem_cons, not_or] at h
    have hc : ¬ c = sep := fun e => h.1 e.symm
    simp [cutAt, hc, ih h.2]

theorem cutAt_some_of_mem (sep : Char) (s : List Char) (h : sep ∈ s) :
    ∃ a b, sep ∉ a ∧ s = a ++ sep :: b := by
  induction s with
  | nil => simp at h
  | cons c s ih =>
    by_cases hc : c = sep
    · exact ⟨[], s, by simp, by simp [hc]⟩
    · have hs : sep ∈ s := by
        rcases List.mem_cons.mp h with e | e
        · exact absurd e.symm hc
        · exact e
      obtain ⟨a, b, ha, hab⟩ := ih hs
      refine ⟨c :: a, b, ?_, by simp [hab]⟩
      simp only [List.mem_cons, not_or]
      exact ⟨fun e => hc e.symm, ha⟩

theorem SplitN_append (L R : String) (hL : '=' ∉ L.data) :
    SplitN (L ++ "=" ++ R) = [L, R] := by
  have hd : (L ++ "=" ++ R).data = L.data ++ '=' :: R.data := by
    simp [String.data_append]
  simp only [SplitN, hd, cutAt_append '=' L.data R.data hL]

theorem SplitN_no_eq (s : String) (h : '=' ∉ s.data) : SplitN s = [s] := by
  simp only [SplitN, cutAt_none '=' s.data h]

/-- The error that `parseValue` returns is always nil. -/
theorem parseValue_err (s : String) : (parseValue s).2 = none := by
  unfold parseValue
  simp only
  split
  · rfl
  · split
    · rfl
    · split
      · rfl
      · split
        · split <;> rfl
        · rfl

/-- C14 (set-expression decomposition): for `L` without `=`, so that `L` is
the text before the first `=` of `L=R` and `R` everything after it,
`SetValue` on `L=R` fails with `invalid path in set expression` when `New` of
the trimmed `L` fails, and otherwise is `setValueAtPath` with the parts of
that path and the `parseValue` of the trimmed `R`; every expression that
contains `=` has this form. -/
theorem SetValue_decomposition (data : Fields) :
    (∀ L R : String, '=' ∉ L.data →
      SetValue data (L ++ "=" ++ R) =
        match New (TrimSpace L) with
        | .error e => (data, some ("invalid path in set expression: " ++ e))
        | .ok q => setValueAtPath data q.Parts (parseValue (TrimSpace R)).1) ∧
    (∀ expr : String, '=' ∈ expr.data →
      ∃ L R : String, '=' ∉ L.data ∧ expr = L ++ "=" ++ R) := by
  constructor
  · intro L R hL
    simp only [SetValue, SplitN_append L R hL]
    cases hn : New (TrimSpace L) with
    | error e => rfl
    | ok q =>
      simp only
      have he := parseValue_err (TrimSpace R)
      cases hv : parseValue (TrimSpace R) with
      | mk value err =>
        rw [hv] at he
        simp only at he
        subst he
        rfl
  · intro expr h
    obtain ⟨a, b, ha, hab⟩ := cutAt_some_of_mem '=' expr.data h
    refine ⟨String.mk a, String.mk b, ha, ?_⟩
    apply String.ext
    simp [String.data_append, hab]

/-- C14 at `.a = "x=y"` and at `.database.port = 5432`, both on `{}`. -/
theorem SetValue_decomposition_witness :
    SetValue [] (".a " ++ "=" ++ " \x22x=y\x22") = ([("a", .str "x=y")], none) ∧
    SetValue [] (".database.port " ++ "=" ++ " 5432")
      = ([("database", .smap [("port", .int 5432)])], none) :=
  ⟨((SetValue_decomposition []).1 ".a " " \x22x=y\x22" (by decide)).trans (by rfl),
    ((SetValue_decomposition []).1 ".database.port " " 5432" (by decide)).trans (by rfl)⟩

/-- C15 (malformed set expressions): on an expression without `=`, `SetValue`
returns `invalid set expression: <expr> (expected: .key = value)`; on an
expression `L=R` whose `L` has no `=` and is empty after trimming, it returns
`invalid path in set expression: query path cannot be empty`; in both cases
the data mapping is as it was. -/
theorem SetValue_malformed (data : Fields) :
    (∀ expr : String, '=' ∉ expr.data →
      SetValue data expr
        = (data, some ("invalid set expression: " ++ expr ++ " (expected: .key = value)"))) ∧
    (∀ L R : String, '=' ∉ L.data → TrimSpace L = "" →
      SetValue data (L ++ "=" ++ R)
        = (data, some ("invalid path in set expression: " ++ "query path cannot be empty"))) := by
  constructor
  · intro expr h
    simp only [SetValue, SplitN_no_eq expr h]
  · intro L R hL ht
    simp only [SetValue, SplitN_append L R hL, ht]
    rfl

/-- C15 at `.name "John"` and at ` = "value"` on `{k: 1}`. -/
theorem SetValue_malformed_witness :
    SetValue [("k", .int 1)] ".name \x22John\x22"
      = ([("k", .int 1)],
          some "invalid set expression: .name \x22John\x22 (expected: .key = value)") ∧
    SetValue [("k", .int 1)] (" " ++ "=" ++ " \x22value\x22")
      = ([("k", .int 1)],
          some "invalid path in set expression: query path cannot be empty") :=
  ⟨(SetValue_malformed [("k", .int 1)]).1 ".name \x22John\x22" (by decide),
    (SetValue_malformed [("k", .int 1)]).2 " " " \x22value\x22" (by decide) (by decide)⟩

/-! ## Literals -/

theorem quoted_data (q : Char) (s : String) :
    (String.singleton q ++ s ++ String.singleton q).data = q :: (s.data ++ [q]) := by
  simp [String.data_append, String.singleton]

theorem parseValue_wrapped (q : Char) (s : String)
    (hq : q = Char.ofNat 34 ∨ q = Char.ofNat 39) :
    parseValue (String.singleton q ++ s ++ String.singleton q) = (.str s, none) := by
  have hd := quoted_data q s
  have hlen : 2 ≤ (String.singleton q ++ s ++ String.singleton q).data.length := by
    rw [hd]
    simp
  have hhead : (String.singleton q ++ s ++ String.singleton q).data.head? = some q := by
    rw [hd]
    rfl
  have hlast : (String.singleton q ++ s ++ String.singleton q).data.getLast? = some q := by
    rw [hd, ← List.cons_append]
    exact List.getLast?_concat _
  have hmid : (((String.singleton q ++ s ++ String.singleton q).data.take
      ((String.singleton q ++ s ++ String.singleton q).data.length - 1)).drop 1) = s.data := by
    rw [hd]
    have e : (q :: (s.data ++ [q])).length - 1 = (q :: s.data).length := by simp
    rw [e, ← List.cons_append, List.take_left]
    rfl
  have hcond : 2 ≤ (String.singleton q ++ s ++ String.singleton q).data.length ∧
      (((String.singleton q ++ s ++ String.singleton q).data.head? = some (Char.ofNat 34) ∧
        (String.singleton q ++ s ++ String.singleton q).data.getLast? = some (Char.ofNat 34)) ∨
      ((String.singleton q ++ s ++ String.singleton q).data.head? = some (Char.ofNat 39) ∧
        (String.singleton q ++ s ++ String.singleton q).data.getLast? = some (Char.ofNat 39))) := by
    refine ⟨hlen, ?_⟩
    rw [hhead, hlast]
    rcases hq with h | h
    · exact Or.inl ⟨by rw [h], by rw [h]⟩
    · exact Or.inr ⟨by rw [h], by rw [h]⟩
  unfold parseValue
  simp only [if_pos hcond, hmid]

/-- C18 (quoted literals are taken verbatim): for every string `s`,
`parseValue` of `s` between two double quotes and of `s` between two single
quotes returns the string `s` itself, with a nil error, whatever `s`
contains. -/
theorem parseValue_quoted (s : String) :
    parseValue ("\x22" ++ s ++ "\x22") = (.str s, none) ∧
    parseValue ("\x27" ++ s ++ "\x27") = (.str s, none) :=
  ⟨parseValue_wrapped (Char.ofNat 34) s (Or.inl rfl),
    parseValue_wrapped (Char.ofNat 39) s (Or.inr rfl)⟩

theorem int64OfFloat64_range (bits : Nat) :
    -(2 ^ 63) ≤ int64OfFloat64 bits ∧ int64OfFloat64 bits < 2 ^ 63 := by
  unfold int64OfFloat64
  split
  · split
    · assumption
    · constructor <;> norm_num
  · constructor <;> norm_num

/-- The value that `parseValue` returns is a string, a boolean, an int64 or a
float64. -/
theorem parseValue_kind (s : String) :
    (∃ x, (parseValue s).1 = .str x) ∨ (∃ b, (parseValue s).1 = .bool b) ∨
    (∃ i, (parseValue s).1 = .int i ∧ -(2 ^ 63) ≤ i ∧ i < 2 ^ 63) ∨
    (∃ f, (parseValue s).1 = .float f) := by
  unfold parseValue
  simp only
  split
  · exact Or.inl ⟨_, rfl⟩
  · split
    · exact Or.inr (Or.inl ⟨_, rfl⟩)
    · split
      · exact Or.inr (Or.inl ⟨_, rfl⟩)
      · split
        · split
          · exact Or.inr (Or.inr (Or.inr ⟨_, rfl⟩))
          · exact Or.inr (Or.inr (Or.inl ⟨_, rfl, int64OfFloat64_range _⟩))
        · exact Or.inl ⟨_, rfl⟩

theorem head_of_HasPrefix (e pre : String) (c : Char) (rest : List Char)
    (hpre : pre.data = c :: rest) (h : HasPrefix e pre = true) : e.data.head? = some c := by
  unfold HasPrefix at h
  rw [hpre] at h
  cases hd : e.data with
  | nil => simp [hd, List.isPrefixOf] at h
  | cons a as =>
    rw [hd] at h
    simp only [List.isPrefixOf, Bool.and_eq_true, beq_iff_eq] at h
    simp [h.1]

theorem setLoop_err_head (path : List String) (value : Value) (i : Nat)
    (rest : List String) (current : Fields) (e : String)
    (h : (setLoop path value i rest current).2 = some e) : e.data.head? = some 'c' := by
  induction rest generalizing i current with
  | nil => simp [setLoop_nil] at h
  | cons key rest ih =>
    cases hm : mapIndex current key with
    | none =>
      rw [setLoop_cons_absent _ _ _ _ _ _ hm] at h
      exact ih _ _ h
    | some next =>
      by_cases hn : ∃ nm, next = .smap nm
      · obtain ⟨nm, rfl⟩ := hn
        rw [setLoop_cons_map _ _ _ _ _ _ _ hm] at h
        exact ih _ _ h
      · rw [setLoop_cons_stuck _ _ _ _ _ _ _ hm (fun nm e => hn ⟨nm, e⟩)] at h
        simp only [Option.some.injEq] at h
        rw [← h]
        simp [String.data_append]

theorem setValueAtPath_err_head (data : Fields) (p : List String) (v : Value) (e : String)
    (h : (setValueAtPath data p v).2 = some e) : e.data.head? = some 'c' := by
  unfold setValueAtPath at h
  split at h
  · simp only [Option.some.injEq] at h
    rw [← h]
    rfl
  · exact setLoop_err_head _ _ _ _ _ _ h

/-- C20 (the literal parser never fails): for every input string,
`parseValue` returns a nil error and a value that is a string, a boolean, an
int64 or a float64; and no error that `Modifier.SetValue` returns is the
`invalid value in set expression` error. -/
theorem parseValue_never_fails (s : String) :
    (parseValue s).2 = none ∧
    ((∃ x, (parseValue s).1 = .str x) ∨ (∃ b, (parseValue s).1 = .bool b) ∨
      (∃ i, (parseValue s).1 = .int i ∧ -(2 ^ 63) ≤ i ∧ i < 2 ^ 63) ∨
      (∃ f, (parseValue s).1 = .float f)) ∧
    (∀ (data : Fields) (expr : String) (d : Fields) (e : String),
      SetValue data expr = (d, some e) →
      HasPrefix e "invalid value in set expression" = false) := by
  refine ⟨parseValue_err s, parseValue_kind s, ?_⟩
  intro data expr d e h
  unfold SetValue at h
  split at h
  · rename_i left right hsplit
    simp only at h
    split at h
    · simp only [Prod.mk.injEq, Option.some.injEq] at h
      rw [← h.2]
      simp [HasPrefix, String.data_append, List.isPrefixOf]
    · split at h
      · rename_i value err hv
        have he := parseValue_err (TrimSpace right)
        rw [hv] at he
        simp at he
      · have hc := setValueAtPath_err_head _ _ _ e (by rw [h])
        cases hb : HasPrefix e "invalid value in set expression" with
        | false => rfl
        | true =>
          have hi := head_of_HasPrefix e "invalid value in set expression" 'i'
            "nvalid value in set expression".data rfl hb
          rw [hc] at hi
          simp at hi
  · simp only [Prod.mk.injEq, Option.some.injEq] at h
    rw [← h.2]
    simp [HasPrefix, String.data_append, List.isPrefixOf]

/-- C20 at the literal `3.14` and at the expression `x`, which has no `=`. -/
theorem parseValue_never_fails_witness :
    (parseValue "3.14").2 = none ∧
    HasPrefix "invalid set expression: x (expected: .key = value)"
      "invalid value in set expression" = false :=
  ⟨(parseValue_never_fails "3.14").1,
    (parseValue_never_fails "3.14").2.2 [] "x" []
      "invalid set expression: x (expected: .key = value)" (by rfl)⟩

/-! ## Delete expressions -/

theorem deleteLoop_err_head (path : List String) (i : Nat) (rest : List String)
    (current : Fields) (e : String) (h : (deleteLoop path i rest current).2 = some e) :
    e.data.head? ≠ some 'i' := by
  induction rest generalizing i current with
  | nil =>
    cases hm : mapIndex current (path.getLastD "") with
    | none =>
      rw [deleteLoop_nil_absent _ _ _ hm] at h
      simp only [Option.some.injEq] at h
      rw [← h]
      simp [String.data_append]
    | some x =>
      rw [deleteLoop_nil_present _ _ _ x hm] at h
      simp at h
  | cons key rest ih =>
    cases hm : mapIndex current key with
    | none =>
      rw [deleteLoop_cons_absent _ _ _ _ _ hm] at h
      simp only [Option.some.injEq] at h
      rw [← h]
      simp [String.data_append]
    | some next =>
      by_cases hn : ∃ nm, next = .smap nm
      · obtain ⟨nm, rfl⟩ := hn
        rw [deleteLoop_cons_map _ _ _ _ _ _ hm] at h
        exact ih _ _ h
      · rw [deleteLoop_cons_stuck _ _ _ _ _ _ hm (fun nm e => hn ⟨nm, e⟩)] at h
        simp only [Option.some.injEq] at h
        rw [← h]
        simp [String.data_append]

theorem deleteValueAtPath_err_head (data : Fields) (p : List String) (e : String)
    (h : (deleteValueAtPath data p).2 = some e) : e.data.head? ≠ some 'i' := by
  unfold deleteValueAtPath at h
  split at h
  · simp only [Option.some.injEq] at h
    rw [← h]
    decide
  · exact deleteLoop_err_head _ _ _ _ _ h

theorem New_error (P e : String) (h : New P = .error e) :
    e = "query path cannot be empty" := by
  unfold New at h
  split at h
  · simp only [Except.error.injEq] at h
    exact h.symm
  · simp only at h
    split at h <;> simp at h

/-- A text that starts with `del(` and ends with `)` has at least five
characters, and the slice `[4 : len-1]` of it is the text without its first
four characters and its last one. -/
theorem slice_interior (expr : String) (h1 : HasPrefix expr "del(" = true)
    (h2 : HasSuffix expr ")" = true) :
    5 ≤ expr.data.length ∧
    slice expr 4 (expr.data.length - 1) = some (String.mk ((expr.data.drop 4).dropLast)) := by
  unfold HasPrefix at h1
  unfold HasSuffix at h2
  rw [List.isPrefixOf_iff_prefix] at h1
  rw [List.isSuffixOf_iff_suffix] at h2
  obtain ⟨rest, hrest⟩ := h1
  obtain ⟨pre, hpre⟩ := h2
  have hlen : 5 ≤ expr.data.length := by
    cases rest with
    | nil =>
      rw [← hrest] at hpre
      have := congrArg List.getLast? hpre
      simp at this
    | cons r rs =>
      rw [← hrest]
      simp
  refine ⟨hlen, ?_⟩
  unfold slice
  have hc : 4 ≤ expr.data.length - 1 ∧ expr.data.length - 1 ≤ expr.data.length := by omega
  rw [if_pos hc]
  congr 2
  rw [List.dropLast_eq_take, List.length_drop, List.drop_take]
  have e : expr.data.length - 1 - 4 = expr.data.length - 4 - 1 := by omega
  rw [e]

/-- C16 (delete-expression syntax): the error that `Modifier.DeleteValue`
returns starts with `invalid delete expression` if and only if `expr` does not
both start with `del(` and end with `)`, and the call then leaves the data as
it was; otherwise the call does not panic and is `deleteValueAtPath` with the
parts of `New` of `expr` without its first four characters and its last one,
or the `invalid path in delete expression` error when that `New` fails. -/
theorem DeleteValue_expression (data : Fields) (expr : String) :
    ((∃ d e, DeleteValue data expr = some (d, some e) ∧
        HasPrefix e "invalid delete expression" = true) ↔
      ¬ (HasPrefix expr "del(" = true ∧ HasSuffix expr ")" = true)) ∧
    (¬ (HasPrefix expr "del(" = true ∧ HasSuffix expr ")" = true) →
      DeleteValue data expr
        = some (data,
            some ("invalid delete expression: " ++ expr ++ " (expected: del(.key))"))) ∧
    (HasPrefix expr "del(" = true → HasSuffix expr ")" = true →
      DeleteValue data expr =
        match New (String.mk ((expr.data.drop 4).dropLast)) with
        | .error e => some (data, some ("invalid path in delete expression: " ++ e))
        | .ok q => some (deleteValueAtPath data q.Parts)) := by
  have hbad : ¬ (HasPrefix expr "del(" = true ∧ HasSuffix expr ")" = true) →
      DeleteValue data expr
        = some (data,
            some ("invalid delete expression: " ++ expr ++ " (expected: del(.key))")) := by
    intro h
    have hc : ¬ HasPrefix expr "del(" = true ∨ ¬ HasSuffix expr ")" = true := by
      by_cases h1 : HasPrefix expr "del(" = true
      · exact Or.inr (fun h2 => h ⟨h1, h2⟩)
      · exact Or.inl h1
    unfold DeleteValue
    rw [if_pos hc]
  have hgood : HasPrefix expr "del(" = true → HasSuffix expr ")" = true →
      DeleteValue data expr =
        match New (String.mk ((expr.data.drop 4).dropLast)) with
        | .error e => some (data, some ("invalid path in delete expression: " ++ e))
        | .ok q => some (deleteValueAtPath data q.Parts) := by
    intro h1 h2
    have hc : ¬ (¬ HasPrefix expr "del(" = true ∨ ¬ HasSuffix expr ")" = true) := by
      simp [h1, h2]
    unfold DeleteValue
    rw [if_neg hc, (slice_interior expr h1 h2).2]
  refine ⟨⟨?_, ?_⟩, hbad, hgood⟩
  · rintro ⟨d, e, hde, he⟩ ⟨h1, h2⟩
    have hi := head_of_HasPrefix e "invalid delete expression" 'i'
      "nvalid delete expression".data rfl he
    rw [hgood h1 h2] at hde
    cases hn : New (String.mk ((expr.data.drop 4).dropLast)) with
    | error msg =>
      rw [hn] at hde
      simp only [Option.some.injEq, Prod.mk.injEq] at hde
      rw [New_error _ _ hn] at hde
      rw [← hde.2] at he
      revert he
      decide
    | ok q =>
      rw [hn] at hde
      simp only [Option.some.injEq] at hde
      exact deleteValueAtPath_err_head data q.Parts e (by rw [hde]) hi
  · intro h
    refine ⟨data, _, hbad h, ?_⟩
    simp [HasPrefix, String.data_append, List.isPrefixOf]

/-- C16 at `del()`, `delete(.key)` and `del(.name)`. -/
theorem DeleteValue_expression_witness :
    DeleteValue [] "del()"
      = some ([], some "invalid path in delete expression: query path cannot be empty") ∧
    DeleteValue [] "delete(.key)"
      = some ([], some "invalid delete expression: delete(.key) (expected: del(.key))") ∧
    DeleteValue [("name", .str "John"), ("age", .int 30)] "del(.name)"
      = some ([("age", .int 30)], none) :=
  ⟨((DeleteValue_expression [] "del()").2.2 (by decide) (by decide)).trans (by rfl),
    (DeleteValue_expression [] "delete(.key)").2.1 (by decide),
    ((DeleteValue_expression [("name", .str "John"), ("age", .int 30)] "del(.name)").2.2
      (by decide) (by decide)).trans (by rfl)⟩

/-! ## Integers through float64 -/

theorem bitLenFuel_spec (fuel n : Nat) (hf : n ≤ fuel) (hn : n ≠ 0) :
    1 ≤ bitLenFuel fuel n ∧ 2 ^ (bitLenFuel fuel n - 1) ≤ n ∧ n < 2 ^ bitLenFuel fuel n := by
  induction fuel generalizing n with
  | zero => omega
  | succ fuel ih =>
    simp only [bitLenFuel, hn, if_false]
    by_cases h2 : n / 2 = 0
    · have h1 : n = 1 := by omega
      subst h1
      cases fuel <;> simp [bitLenFuel]
    · obtain ⟨i1, i2, i3⟩ := ih (n / 2) (by omega) h2
      refine ⟨by omega, ?_, ?_⟩
      · have e : 1 + bitLenFuel fuel (n / 2) - 1 = (bitLenFuel fuel (n / 2) - 1) + 1 := by omega
        rw [e, pow_succ]
        omega
      · have e : 1 + bitLenFuel fuel (n / 2) = bitLenFuel fuel (n / 2) + 1 := by omega
        rw [e, pow_succ]
        omega

theorem bitLen_spec (n : Nat) (hn : n ≠ 0) :
    1 ≤ bitLen n ∧ 2 ^ (bitLen n - 1) ≤ n ∧ n < 2 ^ bitLen n :=
  bitLenFuel_spec n n (Nat.le_refl n) hn

theorem bitLen_le_of_lt (n k : Nat) (hn : n ≠ 0) (h : n < 2 ^ k) : bitLen n ≤ k := by
  obtain ⟨h1, h2, _⟩ := bitLen_spec n hn
  by_contra hc
  have h3 : 2 ^ k ≤ 2 ^ (bitLen n - 1) := Nat.pow_le_pow_right (by norm_num) (by omega)
  omega

/-- An integer of at most 53 significant bits is a float64: rounding it
changes nothing. -/
theorem roundMagnitude_exact (m : Nat) (hm : m ≠ 0) (h : bitLen m ≤ 53) :
    roundMagnitude m 1
      = some ((bitLen m + 1021) * 2 ^ 52 + m * 2 ^ (53 - bitLen m)) := by
  obtain ⟨h1, h2, h3⟩ := bitLen_spec m hm
  have hb1 : bitLen 1 = 1 := by decide
  have hX : m * 2 ^ (53 - bitLen m) < 2 ^ 53 := by
    calc m * 2 ^ (53 - bitLen m) < 2 ^ bitLen m * 2 ^ (53 - bitLen m) :=
          Nat.mul_lt_mul_of_pos_right h3 (by positivity)
      _ = 2 ^ 53 := by rw [← pow_add]; congr 1; omega
  have hc : 1 * 2 ^ (bitLen m - 1) ≤ m * 2 ^ (1 - bitLen m) := by
    have e : 1 - bitLen m = 0 := by omega
    rw [e]
    simpa using h2
  have hqb : bitLen m + 1022 - 1 - 0 = bitLen m + 1021 := by omega
  have e1 : 1074 - (bitLen m + 1021) = 53 - bitLen m := by omega
  have e2 : bitLen m + 1021 - 1074 = 0 := by omega
  unfold roundMagnitude
  simp only [hb1, if_pos hc, hqb, e1, e2, pow_zero, Nat.mul_one, Nat.div_one, Nat.mod_one]
  have hno : ¬ (1 < 2 * 0 ∨ (2 * 0 = 1 ∧ m * 2 ^ (53 - bitLen m) % 2 = 1)) := by omega
  rw [if_neg hno]
  have hov : ¬ 2047 * 2 ^ 52 ≤ (bitLen m + 1021) * 2 ^ 52 + m * 2 ^ (53 - bitLen m) := by
    have : (bitLen m + 1021) * 2 ^ 52 ≤ 1074 * 2 ^ 52 := Nat.mul_le_mul_right _ (by omega)
    norm_num at this hX ⊢
    omega
  rw [if_neg hov]

theorem truncFloat64_exact (neg : Bool) (m : Nat) (hm : m ≠ 0) (h : bitLen m ≤ 53) :
    truncFloat64 ((if neg then 2 ^ 63 else 0)
        + ((bitLen m + 1021) * 2 ^ 52 + m * 2 ^ (53 - bitLen m)))
      = some (if neg then -(m : Int) else (m : Int)) := by
  obtain ⟨h1, h2, h3⟩ := bitLen_spec m hm
  have hX1 : m * 2 ^ (53 - bitLen m) < 2 ^ 53 := by
    calc m * 2 ^ (53 - bitLen m) < 2 ^ bitLen m * 2 ^ (53 - bitLen m) :=
          Nat.mul_lt_mul_of_pos_right h3 (by positivity)
      _ = 2 ^ 53 := by rw [← pow_add]; congr 1; omega
  have hX2 : 2 ^ 52 ≤ m * 2 ^ (53 - bitLen m) := by
    calc 2 ^ 52 = 2 ^ (bitLen m - 1) * 2 ^ (53 - bitLen m) := by
          rw [← pow_add]; congr 1; omega
      _ ≤ m * 2 ^ (53 - bitLen m) := Nat.mul_le_mul_right _ h2
  have hmag : m * 2 ^ (53 - bitLen m) / 2 ^ (53 - bitLen m) = m :=
    Nat.mul_div_cancel m (by positivity)
  generalize hXdef : m * 2 ^ (53 - bitLen m) = X at hX1 hX2 hmag
  generalize hLdef : bitLen m = L at h h1 hmag
  norm_num at hX1 hX2
  have hbe : ((if neg then 2 ^ 63 else 0) + ((L + 1021) * 2 ^ 52 + X)) / 2 ^ 52 % 2048
      = L + 1022 := by
    cases neg <;> norm_num <;> omega
  have hfrac : ((if neg then 2 ^ 63 else 0) + ((L + 1021) * 2 ^ 52 + X)) % 2 ^ 52 + 2 ^ 52
      = X := by
    cases neg <;> norm_num <;> omega
  have hq : ((if neg then 2 ^ 63 else 0) + ((L + 1021) * 2 ^ 52 + X)) / 2 ^ 63 % 2
      = if neg then 1 else 0 := by
    cases neg <;> norm_num <;> omega
  have hmag2 : (if 1075 ≤ L + 1022 then X * 2 ^ (L + 1022 - 1075)
      else X / 2 ^ (1075 - (L + 1022))) = m := by
    by_cases hL : 1075 ≤ L + 1022
    · have e : L + 1022 - 1075 = 0 := by omega
      have e2 : 53 - L = 0 := by omega
      rw [e2] at hmag
      simp only [pow_zero, Nat.div_one] at hmag
      rw [if_pos hL, e, pow_zero, Nat.mul_one, hmag]
    · have e : 1075 - (L + 1022) = 53 - L := by omega
      rw [if_neg hL, e, hmag]
  have n1 : ¬ L + 1022 = 2047 := by omega
  have n2 : ¬ L + 1022 = 0 := by omega
  unfold truncFloat64
  simp only [hbe, hfrac, hq, if_neg n1, if_neg n2, hmag2]
  cases neg <;> simp

theorem truncFloat64_zero : truncFloat64 0 = some 0 ∧ truncFloat64 (2 ^ 63) = some 0 := by
  constructor
  · unfold truncFloat64
    norm_num
  · unfold truncFloat64
    norm_num

/-- An integer of magnitude at most 2^53 survives the float64 rounding and the
conversion to int64. -/
theorem int64_of_round (neg : Bool) (m : Nat) (hm : m ≤ 2 ^ 53) :
    ∃ bits, roundFloat64 neg m 1 = some bits ∧
      int64OfFloat64 bits = (if neg then -(m : Int) else (m : Int)) := by
  by_cases h0 : m = 0
  · subst h0
    cases neg
    · refine ⟨0, by decide, ?_⟩
      unfold int64OfFloat64
      rw [truncFloat64_zero.1]
      norm_num
    · refine ⟨2 ^ 63, by decide, ?_⟩
      unfold int64OfFloat64
      rw [truncFloat64_zero.2]
      norm_num
  · by_cases htop : m = 2 ^ 53
    · subst htop
      cases neg
      · exact ⟨1076 * 2 ^ 52, by decide, by decide⟩
      · exact ⟨2 ^ 63 + 1076 * 2 ^ 52, by decide, by decide⟩
    · have hlt : m < 2 ^ 53 := by omega
      have hL := bitLen_le_of_lt m 53 h0 hlt
      refine ⟨(if neg then 2 ^ 63 else 0)
        + ((bitLen m + 1021) * 2 ^ 52 + m * 2 ^ (53 - bitLen m)), ?_, ?_⟩
      · unfold roundFloat64
        simp only [h0, if_false, roundMagnitude_exact m h0 hL]
      · unfold int64OfFloat64
        rw [truncFloat64_exact neg m h0 hL]
        have hr : -(2 ^ 63 : Int) ≤ (if neg then -(m : Int) else (m : Int)) ∧
            (if neg then -(m : Int) else (m : Int)) < 2 ^ 63 := by
          have : (m : Int) < 2 ^ 53 := by exact_mod_cast hlt
          cases neg <;> simp <;> omega
        simp only [if_pos hr]

/-! ## Decimal texts -/

theorem digit_facts : ∀ c ∈ decimalDigits,
    c ≠ '_' ∧ c ≠ '.' ∧ ('0' ≤ c ∧ c ≤ '9') ∧ c ≠ '+' ∧ c ≠ '-' ∧ c ≠ 'i' ∧ c ≠ 'I' ∧
    c ≠ 'n' ∧ c ≠ 'N' ∧ c ≠ 'x' ∧ c ≠ 'X' ∧ c.toLower ≠ 'i' ∧ c ≠ 't' ∧ c ≠ 'f' ∧
    c ≠ Char.ofNat 34 ∧ c ≠ Char.ofNat 39 := by
  decide

theorem digitChar_mem (d : Nat) (h : d < 10) : Nat.digitChar d ∈ decimalDigits := by
  interval_cases d <;> decide

theorem digitChar_value (d : Nat) (h : d < 10) : (Nat.digitChar d).toNat - 48 = d := by
  interval_cases d <;> decide

theorem toDigitsCore_mem (fuel n : Nat) (ds : List Char)
    (h : ∀ c ∈ ds, c ∈ decimalDigits) :
    ∀ c ∈ Nat.toDigitsCore 10 fuel n ds, c ∈ decimalDigits := by
  induction fuel generalizing n ds with
  | zero => simpa [Nat.toDigitsCore] using h
  | succ fuel ih =>
    have hd := digitChar_mem (n % 10) (Nat.mod_lt _ (by norm_num))
    have h2 : ∀ c ∈ Nat.digitChar (n % 10) :: ds, c ∈ decimalDigits := by
      intro c hc
      rcases List.mem_cons.mp hc with e | e
      · rw [e]
        exact hd
      · exact h c e
    simp only [Nat.toDigitsCore]
    split
    · exact h2
    · exact ih _ _ h2

theorem toDigitsCore_ne_nil (fuel n : Nat) (ds : List Char) :
    Nat.toDigitsCore 10 (fuel + 1) n ds ≠ [] := by
  induction fuel generalizing n ds with
  | zero =>
    simp only [Nat.toDigitsCore]
    split <;> simp
  | succ fuel ih =>
    rw [Nat.toDigitsCore]
    split
    · simp
    · exact ih _ _

theorem toDigitsCore_value (fuel n : Nat) (ds : List Char) (h : n < fuel) :
    List.foldl (fun a c => a * 10 + (c.toNat - 48)) 0 (Nat.toDigitsCore 10 fuel n ds)
      = List.foldl (fun a c => a * 10 + (c.toNat - 48)) n ds := by
  induction fuel generalizing n ds with
  | zero => omega
  | succ fuel ih =>
    have hv := digitChar_value (n % 10) (Nat.mod_lt _ (by norm_num))
    simp only [Nat.toDigitsCore]
    split
    · rename_i h0
      simp only [List.foldl_cons, hv]
      congr 1
      omega
    · rename_i h0
      rw [ih (n / 10) _ (by omega)]
      simp only [List.foldl_cons, hv]
      congr 1
      omega

/-- The decimal text of a natural number is a non-empty list of decimal
digits that spell the number. -/
theorem toDigits_spec (m : Nat) :
    Nat.toDigits 10 m ≠ [] ∧ (∀ c ∈ Nat.toDigits 10 m, c ∈ decimalDigits) ∧
    List.foldl (fun a c => a * 10 + (c.toNat - 48)) 0 (Nat.toDigits 10 m) = m := by
  refine ⟨toDigitsCore_ne_nil m m [], toDigitsCore_mem _ _ _ (by simp), ?_⟩
  have h := toDigitsCore_value (m + 1) m [] (by omega)
  simpa [Nat.toDigits] using h

/-- The mantissa loop of `readFloat` on decimal digits reads them all. -/
theorem scanMantissa_digits (ds : List Char) (h : ∀ c ∈ ds, c ∈ decimalDigits)
    (u sd : Bool) (mant frac : Nat) :
    scanMantissa false ds ⟨u, false, sd, mant, frac⟩
      = (⟨u, false, sd || !ds.isEmpty,
          List.foldl (fun a c => a * 10 + (c.toNat - 48)) mant ds, frac⟩, []) := by
  induction ds generalizing sd mant with
  | nil => simp [scanMantissa]
  | cons c cs ih =>
    obtain ⟨f1, f2, f3, -⟩ := digit_facts c (h c (by simp))
    have ih2 := ih (fun x hx => h x (by simp [hx])) true (mant * 10 + (c.toNat - 48))
    simp only [scanMantissa, f1, f2, f3, if_false, and_self, if_true, Bool.false_eq_true,
      Nat.add_zero, false_and]
    rw [ih2]
    simp

theorem hasHexPrefix_digits (ds : List Char) (h : ∀ c ∈ ds, c ∈ decimalDigits) :
    hasHexPrefix ds = false := by
  match ds, h with
  | [], _ => rfl
  | [_], _ => rfl
  | [_, _], _ => rfl
  | a :: b :: c :: rest, h =>
    obtain ⟨-, -, -, -, -, -, -, -, -, f1, f2, -⟩ := digit_facts b (h b (by simp))
    simp [hasHexPrefix, f1, f2]

theorem special_digits (ds : List Char) (hne : ds ≠ []) (h : ∀ c ∈ ds, c ∈ decimalDigits) :
    special ds = none ∧ special ('-' :: ds) = none := by
  cases ds with
  | nil => exact absurd rfl hne
  | cons d rest =>
    obtain ⟨-, -, -, f1, f2, f3, f4, f5, f6, -, -, f7, -⟩ := digit_facts d (h d (by simp))
    constructor
    · simp [special, f1, f2, f3, f4, f5, f6]
    · simp [special, specialInf, commonPrefixLenIgnoreCase, f7]

theorem readNumber_digits (s : List Char) (neg : Bool) (ds : List Char) (hne : ds ≠ [])
    (h : ∀ c ∈ ds, c ∈ decimalDigits) :
    readNumber s neg ds
      = some (⟨neg, false, List.foldl (fun a c => a * 10 + (c.toNat - 48)) 0 ds, 0, 0⟩, []) := by
  have hhex := hasHexPrefix_digits ds h
  have hscan := scanMantissa_digits ds h false false 0 0
  have hemp : ds.isEmpty = false := by
    cases ds with
    | nil => exact absurd rfl hne
    | cons d rest => rfl
  unfold readNumber
  simp only [hhex, Bool.false_eq_true, if_false, hscan, hemp]
  simp [readFloatEnd]

theorem readFloat_digits (ds : List Char) (hne : ds ≠ []) (h : ∀ c ∈ ds, c ∈ decimalDigits) :
    readFloat ds
      = some (⟨false, false, List.foldl (fun a c => a * 10 + (c.toNat - 48)) 0 ds, 0, 0⟩, []) ∧
    readFloat ('-' :: ds)
      = some (⟨true, false, List.foldl (fun a c => a * 10 + (c.toNat - 48)) 0 ds, 0, 0⟩, []) := by
  constructor
  · cases hds : ds with
    | nil => exact absurd hds hne
    | cons d rest =>
      obtain ⟨-, -, -, f1, f2, -⟩ := digit_facts d (h d (by simp [hds]))
      have hr := readNumber_digits ds false ds hne h
      rw [hds] at hr
      simp only [readFloat, f1, f2, or_self, if_false, decide_False]
      exact hr
  · have hr := readNumber_digits ('-' :: ds) true ds hne h
    simp only [readFloat, or_true, if_true, decide_True]
    exact hr

/-- On the text of decimal digits, with or without a minus sign,
`ParseFloat` returns the float64 nearest to the number they spell. -/
theorem ParseFloat_digits (ds : List Char) (hne : ds ≠ [])
    (h : ∀ c ∈ ds, c ∈ decimalDigits) :
    ParseFloat (String.mk ds)
      = roundFloat64 false (List.foldl (fun a c => a * 10 + (c.toNat - 48)) 0 ds) 1 ∧
    ParseFloat (String.mk ('-' :: ds))
      = roundFloat64 true (List.foldl (fun a c => a * 10 + (c.toNat - 48)) 0 ds) 1 := by
  obtain ⟨s1, s2⟩ := special_digits ds hne h
  obtain ⟨r1, r2⟩ := readFloat_digits ds hne h
  constructor
  · simp [ParseFloat, s1, r1, FloatText.toFloat64]
  · simp [ParseFloat, s2, r2, FloatText.toFloat64]

/-- The branch of `parseValue` that a text takes when it is not quoted, not a
boolean, has no dot and `ParseFloat` accepts it. -/
theorem parseValue_of_float (s : String) (c : Char) (bits : Nat)
    (hhead : s.data.head? = some c) (h34 : c ≠ Char.ofNat 34) (h39 : c ≠ Char.ofNat 39)
    (ht : c ≠ 't') (hf : c ≠ 'f') (hpf : ParseFloat s = some bits)
    (hdot : '.' ∉ s.data) :
    parseValue s = (.int (int64OfFloat64 bits), none) := by
  have hq : ¬ (2 ≤ s.data.length ∧
      ((s.data.head? = some (Char.ofNat 34) ∧ s.data.getLast? = some (Char.ofNat 34)) ∨
        (s.data.head? = some (Char.ofNat 39) ∧ s.data.getLast? = some (Char.ofNat 39)))) := by
    rw [hhead]
    rintro ⟨-, ⟨e, -⟩ | ⟨e, -⟩⟩
    · exact h34 (Option.some.inj e)
    · exact h39 (Option.some.inj e)
  have htrue : ¬ s = "true" := by
    intro e
    rw [e] at hhead
    exact ht (Option.some.inj hhead).symm
  have hfalse : ¬ s = "false" := by
    intro e
    rw [e] at hhead
    exact hf (Option.some.inj hhead).symm
  have hd : ContainsDot s = false := by simp [ContainsDot, hdot]
  unfold parseValue
  simp only [if_neg hq, if_neg htrue, if_neg hfalse, hpf, hd, Bool.false_eq_true, if_false]

theorem parseValue_digits (neg : Bool) (ds : List Char) (hne : ds ≠ [])
    (h : ∀ c ∈ ds, c ∈ decimalDigits)
    (hm : List.foldl (fun a c => a * 10 + (c.toNat - 48)) 0 ds ≤ 2 ^ 53) :
    parseValue (String.mk (if neg then '-' :: ds else ds))
      = (.int (if neg
          then -((List.foldl (fun a c => a * 10 + (c.toNat - 48)) 0 ds : Nat) : Int)
          else ((List.foldl (fun a c => a * 10 + (c.toNat - 48)) 0 ds : Nat) : Int)), none) := by
  obtain ⟨bits, hb1, hb2⟩ := int64_of_round neg _ hm
  obtain ⟨p1, p2⟩ := ParseFloat_digits ds hne h
  have hnodot : '.' ∉ ds := fun hc => (digit_facts '.' (h '.' hc)).2.1 rfl
  cases hds : ds with
  | nil => exact absurd hds hne
  | cons d rest =>
    obtain ⟨-, -, -, -, -, -, -, -, -, -, -, -, f1, f2, f3, f4⟩ :=
      digit_facts d (h d (by simp [hds]))
    rw [← hds]
    cases neg with
    | false =>
      rw [← hb2]
      refine parseValue_of_float _ d bits (by simp [hds]) f3 f4 f1 f2 (p1.trans hb1) hnodot
    | true =>
      rw [← hb2]
      refine parseValue_of_float _ '-' bits (by simp) (by decide) (by decide) (by decide)
        (by decide) (p2.trans hb1) ?_
      simp only [if_true, List.mem_cons, not_or]
      exact ⟨by decide, hnodot⟩

/-- C17, as amended (integer literals up to 2^53): for every integer `n`
with `-2^53 ≤ n ≤ 2^53`, `parseValue` applied to the decimal text of `n`
returns the int64 `n` and a nil error. -/
theorem parseValue_small_integer (n : Int) (h1 : -(2 ^ 53) ≤ n) (h2 : n ≤ 2 ^ 53) :
    parseValue (decimalText n) = (.int n, none) := by
  cases n with
  | ofNat m =>
    obtain ⟨d1, d2, d3⟩ := toDigits_spec m
    have hm : m ≤ 2 ^ 53 := by
      have : (m : Int) ≤ 2 ^ 53 := h2
      exact_mod_cast this
    have h := parseValue_digits false (Nat.toDigits 10 m) d1 d2 (by rw [d3]; exact hm)
    rw [d3] at h
    exact h
  | negSucc k =>
    obtain ⟨d1, d2, d3⟩ := toDigits_spec (k + 1)
    have hm : k + 1 ≤ 2 ^ 53 := by
      have : -(2 ^ 53 : Int) ≤ -((k + 1 : Nat) : Int) := by
        simpa [Int.negSucc_eq] using h1
      have : ((k + 1 : Nat) : Int) ≤ 2 ^ 53 := by omega
      exact_mod_cast this
    have h := parseValue_digits true (Nat.toDigits 10 (k + 1)) d1 d2 (by rw [d3]; exact hm)
    rw [d3] at h
    have e : decimalText (Int.negSucc k) = String.mk ('-' :: Nat.toDigits 10 (k + 1)) := by
      apply String.ext
      simp [decimalText, Nat.repr, String.data_append, List.asString]
    rw [e]
    simpa [Int.negSucc_eq] using h

/-- C17 at `30`, `42` and `-9007199254740992`. -/
theorem parseValue_small_integer_witness :
    (decimalText 30 = "30" ∧ parseValue (decimalText 30) = (.int 30, none)) ∧
    (decimalText 42 = "42" ∧ parseValue (decimalText 42) = (.int 42, none)) ∧
    (decimalText (-9007199254740992) = "-9007199254740992" ∧
      parseValue (decimalText (-9007199254740992)) = (.int (-9007199254740992), none)) :=
  ⟨⟨by decide, parseValue_small_integer 30 (by decide) (by decide)⟩,
    ⟨by decide, parseValue_small_integer 42 (by decide) (by decide)⟩,
    ⟨by decide, parseValue_small_integer (-9007199254740992) (by decide) (by decide)⟩⟩

/-- C17 fails at 2^53 + 1, an integer in the int64 range: the float64 nearest
to 9007199254740993 is 9007199254740992, and that is the int64 returned. -/
theorem parseValue_integer_counterexample :
    (-(2 ^ 63 : Int) ≤ 9007199254740993 ∧ (9007199254740993 : Int) < 2 ^ 63) ∧
    decimalText 9007199254740993 = "9007199254740993" ∧
    parseValue (decimalText 9007199254740993) = (.int 9007199254740992, none) ∧
    parseValue (decimalText 9007199254740993) ≠ (.int 9007199254740993, none) := by
  have h : parseValue (decimalText 9007199254740993) = (.int 9007199254740992, none) := by rfl
  refine ⟨by decide, by decide, h, ?_⟩
  rw [h]
  simp

/-! ## Bare words -/

theorem letter_facts : ∀ c ∈ asciiLetters,
    c ≠ '+' ∧ c ≠ '-' ∧ c ≠ '_' ∧ c ≠ '.' ∧ ¬ ('0' ≤ c ∧ c ≤ '9') ∧ c ≠ '0' ∧
    c ≠ Char.ofNat 34 ∧ c ≠ Char.ofNat 39 := by
  decide

/-- What `commonPrefixLenIgnoreCase` returns is the length of a prefix of the
text that is, in lower case, a prefix of the second argument. -/
theorem commonPrefixLen_spec (s p : List Char) :
    commonPrefixLenIgnoreCase s p ≤ s.length ∧
    (s.take (commonPrefixLenIgnoreCase s p)).map Char.toLower
      = p.take (commonPrefixLenIgnoreCase s p) := by
  induction s generalizing p with
  | nil => simp [commonPrefixLenIgnoreCase]
  | cons c s ih =>
    cases p with
    | nil => simp [commonPrefixLenIgnoreCase]
    | cons x p =>
      by_cases h : c.toLower = x
      · obtain ⟨i1, i2⟩ := ih p
        simp only [commonPrefixLenIgnoreCase, h, if_true]
        constructor
        · simp only [List.length_cons]
          omega
        · rw [Nat.add_comm, List.take_succ_cons, List.take_succ_cons, List.map_cons, h, i2]
      · simp [commonPrefixLenIgnoreCase, h]

theorem specialInf_whole (neg : Bool) (s : List Char) (bits : Nat)
    (h : specialInf neg 0 s = some (bits, s.length)) :
    s.map Char.toLower = "inf".data ∨ s.map Char.toLower = "infinity".data := by
  obtain ⟨i1, i2⟩ := commonPrefixLen_spec s "infinity".data
  unfold specialInf at h
  simp only at h
  generalize commonPrefixLenIgnoreCase s "infinity".data = k at h i1 i2
  by_cases h3 : 3 < k ∧ k < 8
  · simp only [if_pos h3, true_or, if_true, Option.some.injEq, Prod.mk.injEq] at h
    omega
  · rw [if_neg h3] at h
    by_cases h38 : k = 3 ∨ k = 8
    · simp only [if_pos h38, Option.some.injEq, Prod.mk.injEq, Nat.zero_add] at h
      have hk : k = s.length := h.2
      have ht : s.take k = s := by
        rw [hk]
        exact List.take_length _
      rw [ht] at i2
      rcases h38 with e | e
      · rw [e] at i2
        exact Or.inl i2
      · rw [e] at i2
        exact Or.inr i2
    · simp [if_neg h38] at h

/-- When `special` takes a whole text that has no sign, the text is `inf`,
`infinity` or `nan` up to the case of its letters. -/
theorem special_whole (cs : List Char) (bits : Nat)
    (hs : special cs = some (bits, cs.length))
    (hsign : ∀ c, cs.head? = some c → c ≠ '+' ∧ c ≠ '-') :
    cs.map Char.toLower = "inf".data ∨ cs.map Char.toLower = "infinity".data ∨
      cs.map Char.toLower = "nan".data := by
  cases hcs : cs with
  | nil => simp [hcs, special] at hs
  | cons c rest =>
    rw [hcs] at hs hsign
    obtain ⟨n1, n2⟩ := hsign c rfl
    have hns : ¬ (c = '+' ∨ c = '-') := by simp [n1, n2]
    simp only [special, if_neg hns] at hs
    by_cases hi : c = 'i' ∨ c = 'I'
    · rw [if_pos hi] at hs
      rcases specialInf_whole false (c :: rest) bits hs with e | e
      · exact Or.inl e
      · exact Or.inr (Or.inl e)
    · rw [if_neg hi] at hs
      by_cases hn : c = 'n' ∨ c = 'N'
      · rw [if_pos hn] at hs
        obtain ⟨i1, i2⟩ := commonPrefixLen_spec (c :: rest) "nan".data
        by_cases h3 : commonPrefixLenIgnoreCase (c :: rest) "nan".data = 3
        · simp only [if_pos h3, Option.some.injEq, Prod.mk.injEq] at hs
          rw [h3] at i2
          have ht : (c :: rest).take 3 = c :: rest := by
            rw [hs.2]
            exact List.take_length _
          rw [ht] at i2
          exact Or.inr (Or.inr i2)
        · simp [if_neg h3] at hs
      · simp [if_neg hn] at hs

theorem readFloat_letter (c : Char) (rest : List Char) (hc : c ∈ asciiLetters) :
    readFloat (c :: rest) = none := by
  obtain ⟨f1, f2, f3, f4, f5, f6, -⟩ := letter_facts c hc
  have hhex : hasHexPrefix (c :: rest) = false := by
    cases rest with
    | nil => rfl
    | cons a r2 =>
      cases r2 with
      | nil => rfl
      | cons b r3 => simp [hasHexPrefix, f6]
  have hscan : scanMantissa false (c :: rest) ⟨false, false, false, 0, 0⟩
      = (⟨false, false, false, 0, 0⟩, c :: rest) := by
    simp [scanMantissa, f3, f4, f5]
  simp only [readFloat, f1, f2, or_self, if_false, decide_False]
  unfold readNumber
  simp only [hhex, Bool.false_eq_true, if_false, hscan]
  simp

/-- On a text of ASCII letters that is not a spelling of `inf`, `infinity`
or `nan`, `ParseFloat` returns an error. -/
theorem ParseFloat_letters (s : String) (hl : ∀ c ∈ s.data, c ∈ asciiLetters)
    (h1 : s.data.map Char.toLower ≠ "inf".data)
    (h2 : s.data.map Char.toLower ≠ "infinity".data)
    (h3 : s.data.map Char.toLower ≠ "nan".data) :
    ParseFloat s = none := by
  unfold ParseFloat
  cases hs : special s.data with
  | some r =>
    obtain ⟨bits, n⟩ := r
    simp only
    by_cases hn : n = s.data.length
    · subst hn
      have hsign : ∀ c, s.data.head? = some c → c ≠ '+' ∧ c ≠ '-' := by
        intro c hc
        have hmem : c ∈ s.data := List.mem_of_mem_head? hc
        obtain ⟨f1, f2, -⟩ := letter_facts c (hl c hmem)
        exact ⟨f1, f2⟩
      rcases special_whole s.data bits hs hsign with e | e | e
      · exact absurd e h1
      · exact absurd e h2
      · exact absurd e h3
    · rw [if_neg hn]
  | none =>
    simp only
    cases hd : s.data with
    | nil => simp [readFloat]
    | cons c rest =>
      rw [readFloat_letter c rest (hl c (by simp [hd]))]

/-- C19, as amended (bare words are strings): for every text made up only of
ASCII letters, other than `true` and `false` and other than the spellings, in
any letter case, of `inf`, `infinity` and `nan`, `parseValue` returns that
same text as a string value, with a nil error. -/
theorem parseValue_bareword (s : String) (hl : ∀ c ∈ s.data, c ∈ asciiLetters)
    (ht : s ≠ "true") (hf : s ≠ "false")
    (h1 : s.data.map Char.toLower ≠ "inf".data)
    (h2 : s.data.map Char.toLower ≠ "infinity".data)
    (h3 : s.data.map Char.toLower ≠ "nan".data) :
    parseValue s = (.str s, none) := by
  have hq : ¬ (2 ≤ s.data.length ∧
      ((s.data.head? = some (Char.ofNat 34) ∧ s.data.getLast? = some (Char.ofNat 34)) ∨
        (s.data.head? = some (Char.ofNat 39) ∧ s.data.getLast? = some (Char.ofNat 39)))) := by
    rintro ⟨-, ⟨e, -⟩ | ⟨e, -⟩⟩
    · exact (letter_facts _ (hl _ (List.mem_of_mem_head? e))).2.2.2.2.2.2.1 rfl
    · exact (letter_facts _ (hl _ (List.mem_of_mem_head? e))).2.2.2.2.2.2.2 rfl
  unfold parseValue
  simp only [if_neg hq, if_neg ht, if_neg hf, ParseFloat_letters s hl h1 h2 h3]

/-- C19 at `bareword`. -/
theorem parseValue_bareword_witness : parseValue "bareword" = (.str "bareword", none) :=
  parseValue_bareword "bareword" (by decide) (by decide) (by decide) (by decide) (by decide)
    (by decide)

/-- C19 fails at `inf`, a text of ASCII letters other than `true` and
`false`: `ParseFloat` accepts it and `parseValue` returns an int64, not the
string. -/
theorem parseValue_bareword_counterexample :
    (∀ c ∈ "inf".data, c ∈ asciiLetters) ∧ "inf" ≠ "true" ∧ "inf" ≠ "false" ∧
    (∃ i, parseValue "inf" = (.int i, none)) ∧
    parseValue "inf" ≠ (.str "inf", none) := by
  have h : parseValue "inf" = (.int (int64OfFloat64 (2047 * 2 ^ 52)), none) := by rfl
  refine ⟨by decide, by decide, by decide, ⟨_, h⟩, ?_⟩
  rw [h]
  simp

/-! ## Algebra of set and delete -/

theorem mapAssign_mapAssign (m : Fields) (k : String) (a b : Value) :
    mapAssign (mapAssign m k a) k b = mapAssign m k b := by
  induction m with
  | nil => simp [mapAssign]
  | cons e rest ih =>
    obtain ⟨k0, v0⟩ := e
    by_cases h : k0 = k
    · simp [mapAssign, h]
    · simp [mapAssign, h, ih]

theorem mapDelete_mapAssign_absent (m : Fields) (k : String) (v : Value)
    (h : mapIndex m k = none) : mapDelete (mapAssign m k v) k = m := by
  induction m with
  | nil => simp [mapAssign, mapDelete]
  | cons e rest ih =>
    obtain ⟨k0, v0⟩ := e
    by_cases hk : k0 = k
    · simp [mapIndex, hk] at h
    · simp only [mapIndex, hk, if_false] at h
      simp [mapAssign, mapDelete, hk, ih h]

/-- A write walk that fails has changed nothing. -/
theorem setLoop_failed (path : List String) (value : Value) (i : Nat)
    (rest : List String) (current : Fields)
    (h : (setLoop path value i rest current).2 ≠ none) :
    (setLoop path value i rest current).1 = current := by
  induction rest generalizing i current with
  | nil => simp [setLoop_nil] at h
  | cons key rest ih =>
    cases hm : mapIndex current key with
    | none =>
      rw [setLoop_cons_absent _ _ _ _ _ _ hm] at h
      exact absurd (setLoop_empty_ok path value (i + 1) rest) h
    | some next =>
      by_cases hn : ∃ nm, next = .smap nm
      · obtain ⟨nm, rfl⟩ := hn
        rw [setLoop_cons_map _ _ _ _ _ _ _ hm] at h ⊢
        simp only at h ⊢
        rw [ih (i + 1) nm h]
        exact mapAssign_same current key (.smap nm) hm
      · rw [setLoop_cons_stuck _ _ _ _ _ _ _ hm (fun nm e => hn ⟨nm, e⟩)]

/-- C26 (set is atomic on failure): whenever `setValueAtPath` returns an
error, the root mapping after the call is the root mapping before it; a walk
that has created a mapping cannot fail afterwards. -/
theorem set_atomic (root : Fields) (p : List String) (v : Value)
    (h : (setValueAtPath root p v).2 ≠ none) :
    (setValueAtPath root p v).1 = root := by
  unfold setValueAtPath at h ⊢
  split
  · rfl
  · rename_i hlen
    rw [if_neg hlen] at h
    exact setLoop_failed _ _ _ _ _ h

/-- C26 at `.a.b.c = 1` on `{a: {b: "x"}}`. -/
theorem set_atomic_witness :
    (setValueAtPath [("a", .smap [("b", .str "x")])] ["a", "b", "c"] (.int 1)).1
      = [("a", .smap [("b", .str "x")])] :=
  set_atomic [("a", .smap [("b", .str "x")])] ["a", "b", "c"] (.int 1) (by simp [setValueAtPath,
    setLoop, mapIndex])

/-- A second write walk along the same segments, after a successful first
one, gives what it gives on the original mapping, and succeeds. -/
theorem setLoop_twice (path : List String) (v1 v2 : Value) (i : Nat)
    (rest : List String) (current : Fields)
    (h : (setLoop path v1 i rest current).2 = none) :
    setLoop path v2 i rest (setLoop path v1 i rest current).1
        = setLoop path v2 i rest current ∧
      (setLoop path v2 i rest current).2 = none := by
  induction rest generalizing i current with
  | nil => simp [setLoop_nil, mapAssign_mapAssign]
  | cons key rest ih =>
    cases hm : mapIndex current key with
    | none =>
      rw [setLoop_cons_absent _ _ _ _ _ _ hm] at h ⊢
      simp only at h
      obtain ⟨i1, i2⟩ := ih (i + 1) [] h
      rw [setLoop_cons_map _ _ _ _ _ _ _ (mapIndex_mapAssign_self _ _ _),
        setLoop_cons_absent path v2 _ _ _ _ hm, i1, mapAssign_mapAssign]
      exact ⟨rfl, i2⟩
    | some next =>
      by_cases hn : ∃ nm, next = .smap nm
      · obtain ⟨nm, rfl⟩ := hn
        rw [setLoop_cons_map _ _ _ _ _ _ _ hm] at h ⊢
        simp only at h
        obtain ⟨i1, i2⟩ := ih (i + 1) nm h
        rw [setLoop_cons_map _ _ _ _ _ _ _ (mapIndex_mapAssign_self _ _ _),
          setLoop_cons_map path v2 _ _ _ _ _ hm, i1, mapAssign_mapAssign]
        exact ⟨rfl, i2⟩
      · rw [setLoop_cons_stuck _ _ _ _ _ _ _ hm (fun nm e => hn ⟨nm, e⟩)] at h
        simp at h

/-- C28 (last write wins): whenever `setValueAtPath` with a non-empty `p`
and `v1` returns no error, `setValueAtPath` with `p` and `v2` on the resulting
root returns no error and leaves the root that `setValueAtPath` with `p` and
`v2` leaves on the original root; setting `v1` again changes nothing. -/
theorem set_last_write_wins (root : Fields) (p : List String) (v1 v2 : Value)
    (hp : p ≠ []) (h : (setValueAtPath root p v1).2 = none) :
    setValueAtPath (setValueAtPath root p v1).1 p v2 = setValueAtPath root p v2 ∧
    (setValueAtPath root p v2).2 = none ∧
    setValueAtPath (setValueAtPath root p v1).1 p v1 = ((setValueAtPath root p v1).1, none) := by
  have hlen : ¬ p.length = 0 := by simpa using hp
  simp only [setValueAtPath, hlen, if_false] at h ⊢
  obtain ⟨a1, a2⟩ := setLoop_twice p v1 v2 0 p.dropLast root h
  obtain ⟨b1, b2⟩ := setLoop_twice p v1 v1 0 p.dropLast root h
  refine ⟨a1, a2, ?_⟩
  rw [b1]
  exact Prod.ext rfl h

/-- C28 at `.a.b` on `{a: {b: 0}, c: 1}` with the values 1 and 2. -/
theorem set_last_write_wins_witness :
    setValueAtPath (setValueAtPath [("a", .smap [("b", .int 0)]), ("c", .int 1)]
        ["a", "b"] (.int 1)).1 ["a", "b"] (.int 2)
      = ([("a", .smap [("b", .int 2)]), ("c", .int 1)], none) :=
  (set_last_write_wins [("a", .smap [("b", .int 0)]), ("c", .int 1)] ["a", "b"]
    (.int 1) (.int 2) (by simp) (by rfl)).1.trans (by rfl)

/-- When the segments resolve through string-keyed mappings to a mapping that
lacks the final key, the write walk succeeds and the delete walk after it
gives back the mapping the write walk started from. -/
theorem deleteLoop_undoes_setLoop (path : List String) (value : Value) (i : Nat)
    (rest : List String) (current c : Fields)
    (hwalk : descend current rest = some c)
    (habs : mapIndex c (path.getLastD "") = none) :
    (setLoop path value i rest current).2 = none ∧
      deleteLoop path i rest (setLoop path value i rest current).1 = (current, none) := by
  induction rest generalizing i current with
  | nil =>
    simp only [descend, Option.some.injEq] at hwalk
    subst hwalk
    rw [setLoop_nil]
    refine ⟨rfl, ?_⟩
    rw [deleteLoop_nil_present _ _ _ value (mapIndex_mapAssign_self _ _ _),
      mapDelete_mapAssign_absent _ _ _ habs]
  | cons key rest ih =>
    cases hm : mapIndex current key with
    | none => simp [descend, hm] at hwalk
    | some next =>
      cases next with
      | smap nm =>
        simp only [descend, hm] at hwalk
        obtain ⟨i1, i2⟩ := ih (i + 1) nm hwalk
        rw [setLoop_cons_map _ _ _ _ _ _ _ hm]
        refine ⟨i1, ?_⟩
        rw [deleteLoop_cons_map _ _ _ _ _ _ (mapIndex_mapAssign_self _ _ _), i2,
          mapAssign_mapAssign, mapAssign_same current key (.smap nm) hm]
      | _ => simp [descend, hm] at hwalk

/-- C29 (delete undoes set when nothing was auto-vivified): when the
segments before the last of a non-empty `p` resolve from the root through
string-keyed mappings to a mapping that lacks the final key,
`setValueAtPath` returns no error and `deleteValueAtPath` with the same `p`
on the resulting root returns no error and leaves the original root. -/
theorem set_then_delete_restores (root : Fields) (p : List String) (v : Value)
    (hp : p ≠ []) (c : Fields) (hwalk : descend root p.dropLast = some c)
    (habs : mapIndex c (p.getLast hp) = none) :
    (setValueAtPath root p v).2 = none ∧
      deleteValueAtPath (setValueAtPath root p v).1 p = (root, none) := by
  have hlen : ¬ p.length = 0 := by simpa using hp
  have hlast : p.getLast hp = p.getLastD "" := by
    cases p with
    | nil => exact absurd rfl hp
    | cons a l => rfl
  rw [hlast] at habs
  simp only [setValueAtPath, deleteValueAtPath, hlen, if_false]
  exact deleteLoop_undoes_setLoop p v 0 p.dropLast root c hwalk habs

/-- C29 at `.a.x = 1` then `del(.a.x)` on `{a: {b: 0}, c: 1}`. -/
theorem set_then_delete_restores_witness :
    (setValueAtPath [("a", .smap [("b", .int 0)]), ("c", .int 1)] ["a", "x"] (.int 1)).2 = none ∧
      deleteValueAtPath
          (setValueAtPath [("a", .smap [("b", .int 0)]), ("c", .int 1)] ["a", "x"] (.int 1)).1
          ["a", "x"]
        = ([("a", .smap [("b", .int 0)]), ("c", .int 1)], none) :=
  set_then_delete_restores [("a", .smap [("b", .int 0)]), ("c", .int 1)] ["a", "x"] (.int 1)
    (by simp) [("b", .int 0)] (by rfl) (by rfl)

/-- After a successful write walk, a read that leaves the written path
succeeds exactly when it did before, with the same value. -/
theorem setLoop_frame (path : List String) (value : Value) (i : Nat)
    (rest : List String) (current : Fields)
    (h : (setLoop path value i rest current).2 = none) (q : List String)
    (h1 : ¬ (rest ++ [path.getLastD ""]) <+: q) (h2 : ¬ q <+: (rest ++ [path.getLastD ""]))
    (x : Value) :
    executeLoop q (.smap (setLoop path value i rest current).1) = .ok x ↔
      executeLoop q (.smap current) = .ok x := by
  induction rest generalizing i current q with
  | nil =>
    rw [setLoop_nil]
    cases q with
    | nil => exact absurd List.nil_prefix h2
    | cons s q =>
      have hs : path.getLastD "" ≠ s := by
        intro e
        apply h1
        rw [List.nil_append, e]
        exact List.prefix_iff_eq_append.mpr rfl
      rw [executeLoop_smap_cons, executeLoop_smap_cons, mapIndex_mapAssign_ne _ _ _ _ hs]
  | cons key rest ih =>
    cases q with
    | nil => exact absurd List.nil_prefix h2
    | cons s q =>
      have g1 : key = s → ¬ (rest ++ [path.getLastD ""]) <+: q := by
        intro e hpre
        apply h1
        rw [List.cons_append, e]
        exact (List.cons_prefix_cons).mpr ⟨rfl, hpre⟩
      have g2 : key = s → ¬ q <+: (rest ++ [path.getLastD ""]) := by
        intro e hpre
        apply h2
        rw [List.cons_append, e]
        exact (List.cons_prefix_cons).mpr ⟨rfl, hpre⟩
      cases hm : mapIndex current key with
      | none =>
        rw [setLoop_cons_absent _ _ _ _ _ _ hm] at h ⊢
        simp only at h ⊢
        rw [executeLoop_smap_cons, executeLoop_smap_cons]
        by_cases hs : key = s
        · subst hs
          rw [mapIndex_mapAssign_self, hm]
          simp only
          rw [ih (i + 1) [] h q (g1 rfl) (g2 rfl)]
          cases q with
          | nil => exact absurd List.nil_prefix (g2 rfl)
          | cons s2 q2 => simp [executeLoop_smap_cons, mapIndex]
        · rw [mapIndex_mapAssign_ne _ _ _ _ hs]
      | some next =>
        by_cases hn : ∃ nm, next = .smap nm
        · obtain ⟨nm, rfl⟩ := hn
          rw [setLoop_cons_map _ _ _ _ _ _ _ hm] at h ⊢
          simp only at h ⊢
          rw [executeLoop_smap_cons, executeLoop_smap_cons]
          by_cases hs : key = s
          · subst hs
            rw [mapIndex_mapAssign_self, hm]
            exact ih (i + 1) nm h q (g1 rfl) (g2 rfl)
          · rw [mapIndex_mapAssign_ne _ _ _ _ hs]
        · rw [setLoop_cons_stuck _ _ _ _ _ _ _ hm (fun nm e => hn ⟨nm, e⟩)] at h
          simp at h

/-- C27 (set leaves unrelated paths alone): whenever `setValueAtPath` with a
non-empty `p` returns no error, for every segment list `q` such that neither
`p` is a prefix of `q` nor `q` a prefix of `p`, `Query.Execute` with the parts
`q` returns a value on the new root exactly when it returns that value on the
old root. -/
theorem set_frame (root : Fields) (p : List String) (v : Value) (hp : p ≠ [])
    (h : (setValueAtPath root p v).2 = none) (q : List String)
    (h1 : ¬ p <+: q) (h2 : ¬ q <+: p) (x : Value) :
    Query.Execute ⟨q⟩ (.smap (setValueAtPath root p v).1) = .ok x ↔
      Query.Execute ⟨q⟩ (.smap root) = .ok x := by
  have hlen : ¬ p.length = 0 := by simpa using hp
  simp only [setValueAtPath, hlen, if_false] at h ⊢
  have hd := dropLast_append_getLastD p hp
  have g := setLoop_frame p v 0 p.dropLast root h q (by rw [hd]; exact h1)
    (by rw [hd]; exact h2) x
  simpa [Query.Execute] using g

/-- C27 at `.a.b = 1` on `{a: {c: 2}}`, read at `.a.c`. -/
theorem set_frame_witness :
    Query.Execute ⟨["a", "c"]⟩
        (.smap (setValueAtPath [("a", .smap [("c", .int 2)])] ["a", "b"] (.int 1)).1)
      = .ok (.int 2) :=
  (set_frame [("a", .smap [("c", .int 2)])] ["a", "b"] (.int 1) (by simp) (by rfl)
    ["a", "c"] (by decide) (by decide) (.int 2)).mpr (by rfl)

/-! ## The slice of a delete expression -/

/-- C30 (the interior slice of `DeleteValue` is in range): for every text
that starts with `del(` and ends with `)`, the length is at least 5, so the
bounds of the slice `[4 : len-1]` satisfy `4 ≤ len-1 ≤ len` and the slice is
taken without a panic; `DeleteValue` returns on every input text. -/
theorem DeleteValue_total (data : Fields) (expr : String) :
    (HasPrefix expr "del(" = true → HasSuffix expr ")" = true →
      5 ≤ expr.data.length ∧ 4 ≤ expr.data.length - 1 ∧
        expr.data.length - 1 ≤ expr.data.length ∧
        (slice expr 4 (expr.data.length - 1)).isSome = true) ∧
    (DeleteValue data expr).isSome = true := by
  constructor
  · intro h1 h2
    obtain ⟨hl, hs⟩ := slice_interior expr h1 h2
    refine ⟨hl, by omega, by omega, ?_⟩
    rw [hs]
    rfl
  · by_cases hc : HasPrefix expr "del(" = true ∧ HasSuffix expr ")" = true
    · have hn : ¬ (¬ HasPrefix expr "del(" = true ∨ ¬ HasSuffix expr ")" = true) := by
        simp [hc.1, hc.2]
      unfold DeleteValue
      rw [if_neg hn, (slice_interior expr hc.1 hc.2).2]
      simp only
      split <;> rfl
    · have hn : ¬ HasPrefix expr "del(" = true ∨ ¬ HasSuffix expr ")" = true := by
        by_cases h1 : HasPrefix expr "del(" = true
        · exact Or.inr (fun h2 => hc ⟨h1, h2⟩)
        · exact Or.inl h1
      unfold DeleteValue
      rw [if_pos hn]
      rfl

/-- C30 at `del()`, the shortest text with the prefix and the suffix. -/
theorem DeleteValue_total_witness :
    5 ≤ "del()".data.length ∧ 4 ≤ "del()".data.length - 1 ∧
      "del()".data.length - 1 ≤ "del()".data.length ∧
      (slice "del()" 4 ("del()".data.length - 1)).isSome = true :=
  (DeleteValue_total [] "del()").1 (by decide) (by decide)

/-! ## Output formats -/

/-- C24 (output-format names): `ParseOutputFormat s` returns a nil error if
and only if `s` in lower case is `toml`, `json`, `yaml` or `yml`, and it then
returns `FormatTOML`, `FormatJSON`, `FormatYAML`, `FormatYAML`; for every
other `s` it returns the error
`unsupported output format: <s> (supported: toml, json, yaml)`; and
`ParseOutputFormat (f.String())` is `f` for each of the three formats. -/
theorem ParseOutputFormat_names (table : Char → Char) (s : String) :
    ((ParseOutputFormat table s).2 = none ↔
      (ToLower table s = "toml" ∨ ToLower table s = "json" ∨ ToLower table s = "yaml" ∨
        ToLower table s = "yml")) ∧
    (ToLower table s = "toml" → ParseOutputFormat table s = (FormatTOML, none)) ∧
    (ToLower table s = "json" → ParseOutputFormat table s = (FormatJSON, none)) ∧
    (ToLower table s = "yaml" ∨ ToLower table s = "yml" →
      ParseOutputFormat table s = (FormatYAML, none)) ∧
    (¬ (ToLower table s = "toml" ∨ ToLower table s = "json" ∨ ToLower table s = "yaml" ∨
        ToLower table s = "yml") →
      ParseOutputFormat table s
        = (FormatTOML,
            some ("unsupported output format: " ++ s ++ " (supported: toml, json, yaml)"))) ∧
    (ParseOutputFormat table (OutputFormat.String FormatTOML) = (FormatTOML, none) ∧
      ParseOutputFormat table (OutputFormat.String FormatJSON) = (FormatJSON, none) ∧
      ParseOutputFormat table (OutputFormat.String FormatYAML) = (FormatYAML, none)) := by
  refine ⟨?_, ?_, ?_, ?_, ?_, ⟨rfl, rfl, rfl⟩⟩
  · unfold ParseOutputFormat
    simp only
    by_cases h1 : ToLower table s = "toml"
    · simp [h1]
    · by_cases h2 : ToLower table s = "json"
      · simp [h2]
      · by_cases h3 : ToLower table s = "yaml" ∨ ToLower table s = "yml"
        · rcases h3 with h3 | h3 <;> simp [h3]
        · have h4 : ¬ ToLower table s = "yaml" := fun e => h3 (Or.inl e)
          have h5 : ¬ ToLower table s = "yml" := fun e => h3 (Or.inr e)
          simp [h1, h2, h4, h5]
  · intro h
    simp [ParseOutputFormat, h]
  · intro h
    simp [ParseOutputFormat, h]
  · intro h
    rcases h with h | h <;> simp [ParseOutputFormat, h]
  · intro h
    simp only [not_or] at h
    simp [ParseOutputFormat, h.1, h.2.1, h.2.2.1, h.2.2.2]

/-- C24 at `YML` and at the empty string. -/
theorem ParseOutputFormat_names_witness :
    ParseOutputFormat id "YML" = (FormatYAML, none) ∧
    ParseOutputFormat id ""
      = (FormatTOML, some "unsupported output format:  (supported: toml, json, yaml)") :=
  ⟨(ParseOutputFormat_names id "YML").2.2.2.1 (Or.inr (by decide)),
    (ParseOutputFormat_names id "").2.2.2.2.1 (by decide)⟩

/-! ## Write-back -/

theorem outputData_written (outputFails : Value → OutputFormat → Bool) (data : Value)
    (format : OutputFormat) : (outputData outputFails data format).written = none := by
  unfold outputData
  split <;> rfl

theorem afterModifier_written (outputFails : Value → OutputFormat → Bool)
    (writeErr : String → Fields → Option String) (g : Globals) (filePath : String)
    (useStdin : Bool) (r : Fields × Option String) (w : String × Fields)
    (h : (afterModifier outputFails writeErr g filePath useStdin r).written = some w) :
    w = (filePath, r.1) ∧ r.2 = none ∧ g.dryRun = false ∧ g.inplace = true ∧
      useStdin = false := by
  unfold afterModifier at h
  by_cases hd : g.dryRun = true
  · rw [if_pos hd] at h
    cases hr : r.2 with
    | some e => simp [hr] at h
    | none => simp [hr, outputData_written] at h
  · rw [if_neg hd] at h
    by_cases hi : g.inplace = true ∧ ¬ useStdin = true
    · rw [if_pos hi] at h
      cases hr : r.2 with
      | some e => simp [hr] at h
      | none =>
        simp only [hr, writeBack] at h
        have hw : w = (filePath, r.1) := by
          cases hwe : writeErr filePath r.1 <;> simp [hwe] at h <;> exact h.symm
        exact ⟨hw, rfl, by simpa using hd, hi.1, by simpa using hi.2⟩
    · rw [if_neg hi] at h
      cases hr : r.2 with
      | some e => simp [hr] at h
      | none => simp [hr, outputData_written] at h

theorem afterModifier_writes (outputFails : Value → OutputFormat → Bool)
    (writeErr : String → Fields → Option String) (g : Globals) (filePath : String)
    (d : Fields) (hd : g.dryRun = false) (hi : g.inplace = true) :
    (afterModifier outputFails writeErr g filePath false (d, none)).written
      = some (filePath, d) := by
  unfold afterModifier
  simp only [hd, hi, Bool.false_eq_true, if_false, not_false_eq_true, and_self, if_true,
    writeBack]
  cases writeErr filePath d <;> rfl

theorem afterModifierBulk_written (outputFails : Value → OutputFormat → Bool)
    (writeErr : String → Fields → Option String) (g : Globals) (filePath word : String)
    (r : Fields × Option String) (w : String × Fields)
    (h : (afterModifierBulk outputFails writeErr g filePath word r).written = some w) :
    w = (filePath, r.1) ∧ r.2 = none ∧ g.dryRun = false ∧ g.inplace = true := by
  unfold afterModifierBulk at h
  by_cases hd : g.dryRun = true
  · rw [if_pos hd] at h
    cases hr : r.2 with
    | some e => simp [hr] at h
    | none => simp [hr, outputData_written] at h
  · rw [if_neg hd] at h
    by_cases hi : g.inplace = true
    · rw [if_pos hi] at h
      cases hr : r.2 with
      | some e => simp [hr] at h
      | none =>
        simp only [hr] at h
        have hw : w = (filePath, r.1) := by
          cases hwe : writeErr filePath r.1 <;> simp [hwe] at h <;> exact h.symm
        exact ⟨hw, rfl, by simpa using hd, hi⟩
    · rw [if_neg hi] at h
      simp at h

/-- C22 (write-back only after a successful mutation): when
`handleOperations` or `handleOperationsBulk` calls `writeTOMLFile`, the
operation is `set` or `delete`, the modifier has returned no error, `--dry-run`
is not set, `--inplace` is set and (for `handleOperations`) the input did not
come from stdin; what is written is the file path given and the mapping the
modifier left.  Conversely, under these conditions `handleOperations` makes the
call. -/
theorem write_back_after_success (outputFails : Value → OutputFormat → Bool)
    (writeErr : String → Fields → Option String) (g : Globals) (data : Value)
    (dataMap : Fields) (filePath : String) (useStdin : Bool) :
    (∀ e w, handleOperations outputFails writeErr g data dataMap filePath useStdin = some e →
      e.written = some w →
      w.1 = filePath ∧ g.dryRun = false ∧ g.inplace = true ∧ useStdin = false ∧
        ((g.operation = "set" ∧ SetValue dataMap g.operationArg = (w.2, none)) ∨
          (g.operation = "delete" ∧
            DeleteValue dataMap g.operationArg = some (w.2, none)))) ∧
    (∀ e w, handleOperationsBulk outputFails writeErr g data dataMap filePath = some e →
      e.written = some w →
      w.1 = filePath ∧ g.dryRun = false ∧ g.inplace = true ∧
        ((g.operation = "set" ∧ SetValue dataMap g.operationArg = (w.2, none)) ∨
          (g.operation = "delete" ∧
            DeleteValue dataMap g.operationArg = some (w.2, none)))) ∧
    (∀ d, g.dryRun = false → g.inplace = true → useStdin = false →
      ((g.operation = "set" ∧ SetValue dataMap g.operationArg = (d, none)) ∨
        (g.operation = "delete" ∧ DeleteValue dataMap g.operationArg = some (d, none))) →
      ∃ e, handleOperations outputFails writeErr g data dataMap filePath useStdin = some e ∧
        e.written = some (filePath, d)) := by
  refine ⟨?_, ?_, ?_⟩
  · intro e w he hw
    unfold handleOperations at he
    by_cases hq : g.operation = "query"
    · rw [if_pos hq] at he
      split at he
      · simp only [Option.some.injEq] at he
        rw [← he] at hw
        simp at hw
      · split at he
        · simp only [Option.some.injEq] at he
          rw [← he] at hw
          simp at hw
        · split at he
          · simp only [Option.some.injEq] at he
            rw [← he] at hw
            simp at hw
          · simp only [Option.some.injEq] at he
            rw [← he, outputData_written] at hw
            simp at hw
    · rw [if_neg hq] at he
      by_cases hs : g.operation = "set"
      · rw [if_pos hs] at he
        simp only [Option.some.injEq] at he
        rw [← he] at hw
        obtain ⟨a1, a2, a3, a4, a5⟩ := afterModifier_written _ _ _ _ _ _ _ hw
        refine ⟨by rw [a1], a3, a4, a5, Or.inl ⟨hs, ?_⟩⟩
        rw [a1]
        exact Prod.ext rfl a2
      · rw [if_neg hs] at he
        by_cases hdel : g.operation = "delete"
        · rw [if_pos hdel] at he
          cases hdv : DeleteValue dataMap g.operationArg with
          | none => simp [hdv] at he
          | some r =>
            simp only [hdv, Option.some.injEq] at he
            rw [← he] at hw
            obtain ⟨a1, a2, a3, a4, a5⟩ := afterModifier_written _ _ _ _ _ _ _ hw
            refine ⟨by rw [a1], a3, a4, a5, Or.inr ⟨hdel, ?_⟩⟩
            rw [a1]
            exact congrArg some (Prod.ext rfl a2)
        · rw [if_neg hdel] at he
          simp only [Option.some.injEq] at he
          rw [← he] at hw
          simp at hw
  · intro e w he hw
    unfold handleOperationsBulk at he
    by_cases hq : g.operation = "query"
    · rw [if_pos hq] at he
      split at he
      · simp only [Option.some.injEq] at he
        rw [← he, outputData_written] at hw
        simp at hw
      · split at he
        · simp only [Option.some.injEq] at he
          rw [← he] at hw
          simp at hw
        · split at he
          · simp only [Option.some.injEq] at he
            rw [← he] at hw
            simp at hw
          · simp only [Option.some.injEq] at he
            rw [← he, outputData_written] at hw
            simp at hw
    · rw [if_neg hq] at he
      by_cases hs : g.operation = "set"
      · rw [if_pos hs] at he
        split at he
        · simp only [Option.some.injEq] at he
          rw [← he] at hw
          simp at hw
        · simp only [Option.some.injEq] at he
          rw [← he] at hw
          obtain ⟨a1, a2, a3, a4⟩ := afterModifierBulk_written _ _ _ _ _ _ _ hw
          refine ⟨by rw [a1], a3, a4, Or.inl ⟨hs, ?_⟩⟩
          rw [a1]
          exact Prod.ext rfl a2
      · rw [if_neg hs] at he
        by_cases hdel : g.operation = "delete"
        · rw [if_pos hdel] at he
          split at he
          · simp only [Option.some.injEq] at he
            rw [← he] at hw
            simp at hw
          · cases hdv : DeleteValue dataMap g.operationArg with
            | none => simp [hdv] at he
            | some r =>
              simp only [hdv, Option.some.injEq] at he
              rw [← he] at hw
              obtain ⟨a1, a2, a3, a4⟩ := afterModifierBulk_written _ _ _ _ _ _ _ hw
              refine ⟨by rw [a1], a3, a4, Or.inr ⟨hdel, ?_⟩⟩
              rw [a1]
              exact congrArg some (Prod.ext rfl a2)
        · rw [if_neg hdel] at he
          simp only [Option.some.injEq] at he
          rw [← he] at hw
          simp at hw
  · intro d hd hi hst hop
    subst hst
    rcases hop with ⟨hs, hv⟩ | ⟨hdel, hv⟩
    · have hq : ¬ g.operation = "query" := by
        rw [hs]
        decide
      refine ⟨_, by simp only [handleOperations, if_neg hq, if_pos hs, hv]; rfl, ?_⟩
      exact afterModifier_writes _ _ _ _ _ hd hi
    · have hq : ¬ g.operation = "query" := by
        rw [hdel]
        decide
      have hs : ¬ g.operation = "set" := by
        rw [hdel]
        decide
      refine ⟨_, by simp only [handleOperations, if_neg hq, if_neg hs, if_pos hdel, hv]; rfl, ?_⟩
      exact afterModifier_writes _ _ _ _ _ hd hi

/-- C22 at `.version = "2.0"` with `-i` on a file holding `{version: "1.0"}`:
the file is written with the new mapping; with `--dry-run` added it is not. -/
theorem write_back_after_success_witness :
    (∃ e, handleOperations (fun _ _ => false) (fun _ _ => none)
        ⟨FormatTOML, true, "set", ".version = \x222.0\x22", false⟩
        (.smap [("version", .str "1.0")]) [("version", .str "1.0")] "config.toml" false = some e ∧
      e.written = some ("config.toml", [("version", .str "2.0")])) ∧
    (handleOperations (fun _ _ => false) (fun _ _ => none)
        ⟨FormatTOML, true, "set", ".version = \x222.0\x22", true⟩
        (.smap [("version", .str "1.0")]) [("version", .str "1.0")] "config.toml" false
      = some ⟨none, none, none⟩) :=
  ⟨(write_back_after_success (fun _ _ => false) (fun _ _ => none)
      ⟨FormatTOML, true, "set", ".version = \x222.0\x22", false⟩
      (.smap [("version", .str "1.0")]) [("version", .str "1.0")] "config.toml" false).2.2
      [("version", .str "2.0")] rfl rfl rfl (Or.inl ⟨rfl, by rfl⟩),
    by rfl⟩

/-! ## Set and the two representations of a mapping -/

theorem isStringKeyedMapping_iff (x : Value) :
    x.isStringKeyedMapping = true ↔ ∃ nm, x = .smap nm := by
  cases x <;> simp [Value.isStringKeyedMapping]

theorem ne_smap_of_not_isStringKeyedMapping (x : Value)
    (h : x.isStringKeyedMapping = false) (nm : Fields) : x ≠ .smap nm := by
  intro e
  subst e
  simp [Value.isStringKeyedMapping] at h

/-- The write walk succeeds exactly when every value the read walk reaches
along the segments still to pass is a string-keyed mapping. -/
theorem setLoop_ok_iff (path : List String) (value : Value) (i : Nat)
    (rest : List String) (current : Fields) :
    (setLoop path value i rest current).2 = none ↔
      ∀ j x, j < rest.length → executeLoop (rest.take (j + 1)) (.smap current) = .ok x →
        x.isStringKeyedMapping = true := by
  induction rest generalizing i current with
  | nil => simp [setLoop_nil]
  | cons key rest ih =>
    cases hm : mapIndex current key with
    | none =>
      rw [setLoop_cons_absent _ _ _ _ _ _ hm]
      simp [setLoop_empty_ok, executeLoop_smap_cons, hm]
    | some next =>
      by_cases hn : ∃ nm, next = .smap nm
      · obtain ⟨nm, rfl⟩ := hn
        rw [setLoop_cons_map _ _ _ _ _ _ _ hm]
        simp only
        rw [ih (i + 1) nm]
        constructor
        · intro h j x hj hx
          cases j with
          | zero =>
            simp [executeLoop_smap_cons, hm, executeLoop] at hx
            subst hx
            rfl
          | succ j =>
            exact h j x (by simpa using hj) (by simpa [executeLoop_smap_cons, hm] using hx)
        · intro h j x hj hx
          exact h (j + 1) x (by simpa using hj)
            (by simpa [executeLoop_smap_cons, hm] using hx)
      · rw [setLoop_cons_stuck _ _ _ _ _ _ _ hm (fun nm e => hn ⟨nm, e⟩)]
        constructor
        · intro h
          simp at h
        · intro h
          have h0 := h 0 next (by simp) (by simp [executeLoop_smap_cons, hm, executeLoop])
          exact absurd ((isStringKeyedMapping_iff next).mp h0) hn

/-- When the segments resolve through string-keyed mappings, the write walk
succeeds and they resolve afterwards to the same mapping with the value
stored under the final key. -/
theorem setLoop_of_descend (path : List String) (value : Value) (i : Nat)
    (rest : List String) (current c : Fields) (hwalk : descend current rest = some c) :
    (setLoop path value i rest current).2 = none ∧
      descend (setLoop path value i rest current).1 rest
        = some (mapAssign c (path.getLastD "") value) := by
  induction rest generalizing i current with
  | nil =>
    simp only [descend, Option.some.injEq] at hwalk
    subst hwalk
    simp [setLoop_nil, descend]
  | cons key rest ih =>
    cases hm : mapIndex current key with
    | none => simp [descend, hm] at hwalk
    | some next =>
      cases next with
      | smap nm =>
        simp only [descend, hm] at hwalk
        obtain ⟨i1, i2⟩ := ih (i + 1) nm hwalk
        rw [setLoop_cons_map _ _ _ _ _ _ _ hm]
        refine ⟨i1, ?_⟩
        simp only [descend, mapIndex_mapAssign_self]
        exact i2
      | _ => simp [descend, hm] at hwalk

/-- After a successful write walk the segments resolve through string-keyed
mappings to a mapping that holds the value under the final key. -/
theorem setLoop_stores (path : List String) (value : Value) (i : Nat)
    (rest : List String) (current : Fields)
    (h : (setLoop path value i rest current).2 = none) :
    ∃ c, descend (setLoop path value i rest current).1 rest = some c ∧
      mapIndex c (path.getLastD "") = some value := by
  induction rest generalizing i current with
  | nil =>
    rw [setLoop_nil]
    exact ⟨mapAssign current (path.getLastD "") value, rfl, mapIndex_mapAssign_self _ _ _⟩
  | cons key rest ih =>
    cases hm : mapIndex current key with
    | none =>
      rw [setLoop_cons_absent _ _ _ _ _ _ hm] at h ⊢
      obtain ⟨c, h1, h2⟩ := ih (i + 1) [] h
      exact ⟨c, by simpa only [descend, mapIndex_mapAssign_self] using h1, h2⟩
    | some next =>
      by_cases hn : ∃ nm, next = .smap nm
      · obtain ⟨nm, rfl⟩ := hn
        rw [setLoop_cons_map _ _ _ _ _ _ _ hm] at h ⊢
        obtain ⟨c, h1, h2⟩ := ih (i + 1) nm h
        exact ⟨c, by simpa only [descend, mapIndex_mapAssign_self] using h1, h2⟩
      · rw [setLoop_cons_stuck _ _ _ _ _ _ _ hm (fun nm e => hn ⟨nm, e⟩)] at h
        simp at h

/-- When the walk reaches, through string-keyed mappings, a key that holds
anything but a string-keyed mapping, it fails there, names the type of that
value and the segments up to that key, and has changed nothing. -/
theorem setLoop_stuck_at (path : List String) (value : Value) (i : Nat)
    (pre : List String) (k : String) (rest : List String) (current c : Fields) (x : Value)
    (hwalk : descend current pre = some c) (hk : mapIndex c k = some x)
    (hx : x.isStringKeyedMapping = false) :
    setLoop path value i (pre ++ k :: rest) current
      = (current, some ("cannot navigate into " ++ typeName x ++ " at "
          ++ Join (path.take (i + pre.length + 1)) ".")) := by
  induction pre generalizing i current with
  | nil =>
    simp only [descend, Option.some.injEq] at hwalk
    subst hwalk
    rw [List.nil_append,
      setLoop_cons_stuck _ _ _ _ _ _ _ hk (ne_smap_of_not_isStringKeyedMapping x hx)]
    simp
  | cons key pre ih =>
    cases hm : mapIndex current key with
    | none => simp [descend, hm] at hwalk
    | some next =>
      cases next with
      | smap nm =>
        simp only [descend, hm] at hwalk
        rw [List.cons_append, setLoop_cons_map _ _ _ _ _ _ _ hm, ih (i + 1) nm hwalk]
        simp only
        rw [mapAssign_same current key (.smap nm) hm]
        have e : i + 1 + pre.length + 1 = i + (key :: pre).length + 1 := by
          simp only [List.length_cons]
          omega
        rw [e]
      | _ => simp [descend, hm] at hwalk

/-- C25, amended (set descends into an existing string-keyed mapping and into
nothing else): for every root, segment list `p` of length at least 2 and value
`v`, (1) `setValueAtPath` returns no error if and only if every value that
reading a proper non-empty prefix of `p` reaches is a string-keyed mapping;
(2) when the segments before the last resolve through existing string-keyed
mappings to a mapping `c`, it returns no error and they resolve afterwards to
`c` with `v` stored under the final key; (3) whenever it returns no error, the
segments before the last resolve afterwards through string-keyed mappings to a
mapping that holds `v` under the final key; (4) when the walk reaches a
non-final key that exists and holds anything else, a generic-keyed mapping as
much as a sequence or a scalar, it returns
`cannot navigate into <type> at <segments up to that key joined by .>` and
leaves the root as it was. -/
theorem set_descends_string_keyed (root : Fields) (p : List String) (v : Value)
    (hp : 2 ≤ p.length) :
    ((setValueAtPath root p v).2 = none ↔
      ∀ j x, j + 1 < p.length → Query.Execute ⟨p.take (j + 1)⟩ (.smap root) = .ok x →
        x.isStringKeyedMapping = true) ∧
    (∀ c, descend root p.dropLast = some c →
      (setValueAtPath root p v).2 = none ∧
        descend (setValueAtPath root p v).1 p.dropLast
          = some (mapAssign c (p.getLastD "") v)) ∧
    ((setValueAtPath root p v).2 = none →
      ∃ c, descend (setValueAtPath root p v).1 p.dropLast = some c ∧
        mapIndex c (p.getLastD "") = some v) ∧
    (∀ pre k rest c x, p = pre ++ k :: rest → rest ≠ [] → descend root pre = some c →
      mapIndex c k = some x → x.isStringKeyedMapping = false →
      setValueAtPath root p v
        = (root, some ("cannot navigate into " ++ typeName x ++ " at "
            ++ Join (pre ++ [k]) "."))) := by
  have hlen : ¬ p.length = 0 := by omega
  simp only [setValueAtPath, hlen, if_false]
  refine ⟨?_, ?_, ?_, ?_⟩
  · rw [setLoop_ok_iff]
    constructor
    · intro h j x hj hx
      exact h j x (by rw [List.length_dropLast]; omega)
        (by simpa [Query.Execute, take_dropLast p j hj] using hx)
    · intro h j x hj hx
      have hj2 : j + 1 < p.length := by
        rw [List.length_dropLast] at hj
        omega
      exact h j x hj2 (by simpa [Query.Execute, take_dropLast p j hj2] using hx)
  · intro c hc
    exact setLoop_of_descend p v 0 p.dropLast root c hc
  · intro h
    exact setLoop_stores p v 0 p.dropLast root h
  · intro pre k rest c x hpeq hrest hwalk hk hx
    subst hpeq
    have e1 : (pre ++ k :: rest).dropLast = pre ++ k :: rest.dropLast := by
      rw [List.dropLast_append_of_ne_nil _ (by simp), List.dropLast_cons_of_ne_nil hrest]
    have e2 : (pre ++ k :: rest).take (0 + pre.length + 1) = pre ++ [k] := by
      rw [Nat.zero_add, List.take_append_eq_append_take]
      simp
    rw [e1, setLoop_stuck_at _ _ _ pre k rest.dropLast root c x hwalk hk hx, e2]

/-- C25, amended, on `{a: M, s: {x: 1}}` with `M` the generic-keyed mapping
`{b: 0}`: `.s.y = 2` descends into the string-keyed mapping under `s` and
stores 2 under `y` there; `.a.b = 1` stops at the generic-keyed mapping
under `a`. -/
theorem set_descends_string_keyed_witness :
    ((setValueAtPath [("a", .gmap [(.str "b", .int 0)]), ("s", .smap [("x", .int 1)])]
        ["s", "y"] (.int 2)).2 = none ∧
      descend (setValueAtPath [("a", .gmap [(.str "b", .int 0)]), ("s", .smap [("x", .int 1)])]
        ["s", "y"] (.int 2)).1 ["s"] = some [("x", .int 1), ("y", .int 2)]) ∧
    setValueAtPath [("a", .gmap [(.str "b", .int 0)]), ("s", .smap [("x", .int 1)])]
        ["a", "b"] (.int 1)
      = ([("a", .gmap [(.str "b", .int 0)]), ("s", .smap [("x", .int 1)])],
          some "cannot navigate into map[interface \x7b\x7d]interface \x7b\x7d at a") :=
  ⟨(set_descends_string_keyed
      [("a", .gmap [(.str "b", .int 0)]), ("s", .smap [("x", .int 1)])]
      ["s", "y"] (.int 2) (by decide)).2.1 [("x", .int 1)] (by rfl),
    ((set_descends_string_keyed
      [("a", .gmap [(.str "b", .int 0)]), ("s", .smap [("x", .int 1)])]
      ["a", "b"] (.int 1) (by decide)).2.2.2 [] "a" ["b"]
      [("a", .gmap [(.str "b", .int 0)]), ("s", .smap [("x", .int 1)])]
      (.gmap [(.str "b", .int 0)]) (by rfl) (by simp) (by rfl) (by rfl) (by rfl)).trans
      (by rfl)⟩

/-- C25 as first stated fails at `.a.b = 1` on `{a: M}` with `M` the
generic-keyed mapping `{b: 0}`: the segment list has length 2 and its
intermediate key `a` exists and holds a mapping, and `setValueAtPath` returns
the not-navigable error and stores nothing. -/
theorem set_generic_mapping_counterexample :
    2 ≤ ["a", "b"].length ∧
    mapIndex [("a", .gmap [(.str "b", .int 0)])] "a" = some (.gmap [(.str "b", .int 0)]) ∧
    setValueAtPath [("a", .gmap [(.str "b", .int 0)])] ["a", "b"] (.int 1)
      = ([("a", .gmap [(.str "b", .int 0)])],
          some "cannot navigate into map[interface \x7b\x7d]interface \x7b\x7d at a") ∧
    (setValueAtPath [("a", .gmap [(.str "b", .int 0)])] ["a", "b"] (.int 1)).2 ≠ none := by
  have h : setValueAtPath [("a", .gmap [(.str "b", .int 0)])] ["a", "b"] (.int 1)
      = ([("a", .gmap [(.str "b", .int 0)])],
          some "cannot navigate into map[interface \x7b\x7d]interface \x7b\x7d at a") := by rfl
  refine ⟨by decide, by rfl, h, ?_⟩
  rw [h]
  simp

/-! ## Where the code departs from the claims -/

/-- C21 (flag values are not positionals) fails on the code: the first pass
of `main` takes every argument that does not start with `-` as positional, the
value of a flag included.  On `config.toml -o json` the positionals are
`config.toml` and `json` and `main` ends with `handleBulkFiles` on both; on
`--compare config1.toml config2.toml` it ends with `handleBulkFiles` on both
files. -/
theorem main_counts_flag_values (table : Char → Char) :
    main table ["config.toml", "-o", "json"]
      = .ok (⟨FormatJSON, false, "query", "", false⟩,
          .handleBulkFiles ["config.toml", "json"] false) ∧
    main table ["--compare", "config1.toml", "config2.toml"]
      = .ok (⟨FormatTOML, false, "query", "", false⟩,
          .handleBulkFiles ["config1.toml", "config2.toml"] false) :=
  ⟨rfl, rfl⟩

/-- C23 (file-path safety gate) fails on the code at `//etc/passwd`, an
absolute path whose first non-empty component is `etc`: it has no `..` and
does not start with the text `/etc/`, so only the size check is left, and
`validateFilePath` returns nil when the file is absent; `/etc/passwd` and
`../../../etc/passwd` are rejected. -/
theorem validateFilePath_double_slash (stat : String → Option Nat) :
    validateFilePath stat "//etc/passwd"
      = (match stat "//etc/passwd" with
        | some size =>
          if size > 100 * 1024 * 1024 then some "file too large (max 100MB)" else none
        | none => none) ∧
    validateFilePath (fun _ => none) "//etc/passwd" = none ∧
    validateFilePath stat "/etc/passwd" = some "access to system directories not allowed" ∧
    validateFilePath stat "../../../etc/passwd" = some "directory traversal not allowed" :=
  ⟨rfl, rfl, rfl, rfl⟩

end Tmq
